import Mathlib

/-
Verification of the enumerator `self_orthogonal_binary_codes`
(src/commented/databases.py) against its specification.

Shallow embedding notes.

* A binary matrix over GF(2) is a list of rows, each row a list of booleans
  (`true` = 1).  `nrows`/`ncols` mirror Sage's `M.nrows()`/`M.ncols()`.
* The collaborators that the source imports from Sage
  (`LinearCode`, `BinaryCode`, `BinaryCodeClassifier`) are external to the
  repository.  Per the spec's boundary contracts (section 6):
  `LinearCode(M).length() = M.ncols()` and `LinearCode(M).dimension() =
  M.nrows()` (rows are linearly independent by construction), so the
  `LinearCode` wrapper is the identity here and a yielded "code" is its
  generator matrix.  `BinaryCodeClassifier.generate_children` is modelled as
  an arbitrary function `children : Mat → Int → Int → List Mat`; theorems
  that need its contract take it as a hypothesis.
* The Python function is a recursive generator.  It is embedded as a
  fuel-indexed function returning `Except String` of the finite list of
  yielded codes, instrumented with two observational traces: the list of
  matrices visited as recursion nodes (`parent` frames) and the list of
  `generate_children` invocations actually made.  Exhausting the fuel models
  Python's `RecursionError`; the theorems show a fuel of `k + 1` always
  suffices, so the fuel is purely a device to make the recursion structural.
* Python integer arithmetic on possibly-negative values is `Int` arithmetic;
  Lean's `%` on `Int` (`Int.emod`) agrees with Python's `%` for the positive
  modulus 2 used here.
-/

abbrev Mat := List (List Bool)

/-- `M.nrows()` in the source: the number of rows. -/
def nrows (M : Mat) : Nat := M.length

/-- `M.ncols()` in the source: the number of columns (rows are rectangular
for every matrix the enumerator builds; the first row's length is used). -/
def ncols (M : Mat) : Nat :=
  match M with
  | [] => 0
  | r :: _ => r.length

/-- Hamming weight of a row over GF(2). -/
def weight (r : List Bool) : Nat := r.count true

/-- Number of positions where both rows are 1; the GF(2) inner product is
its parity. -/
def dot (r s : List Bool) : Nat := (List.zipWith (fun x y => x && y) r s).count true

/-- Self-orthogonality with respect to the standard GF(2) inner product:
every pair of rows, a row with itself included, has even intersection. -/
def selfOrth (M : Mat) : Prop := ∀ r ∈ M, ∀ s ∈ M, dot r s % 2 = 0

instance (M : Mat) : Decidable (selfOrth M) := by
  unfold selfOrth; infer_instance

/-- Every row weight is divisible by `b` (the divisibility constraint the
parameter `b` of the source imposes on generator rows). -/
def rowsDivisible (b : Int) (M : Mat) : Prop := ∀ r ∈ M, b ∣ (weight r : Int)

instance (b : Int) (M : Mat) : Decidable (rowsDivisible b M) := by
  unfold rowsDivisible; infer_instance

/-- The conjunction of invariants claimed for every yielded code: length
within `n`, dimension within `k`, all row weights divisible by `b`, and
self-orthogonality. -/
def codeInvariant (n k b : Int) (M : Mat) : Prop :=
  (ncols M : Int) ≤ n ∧ (nrows M : Int) ≤ k ∧ rowsDivisible b M ∧ selfOrth M

instance (n k b : Int) (M : Mat) : Decidable (codeInvariant n k b M) := by
  unfold codeInvariant; infer_instance

/-- `Matrix(FiniteField(2), [[1]*j])` (line 134): the 1×j all-ones matrix. -/
def onesRow (j : Int) : Mat := [List.replicate j.toNat true]

/-- `range(d, n+1, d)` (line 133) as a list of integers: `d, 2d, …` up to
`n` (empty when `n < d`; only called with `d > 0`). -/
def seedRange (d n : Int) : List Int :=
  (List.range (n.toNat / d.toNat)).map (fun i : Nat => d * ((i : Int) + 1))

/-- `range(c+1, n+1)` (line 149) as a list of integers: `c+1, …, n`. -/
def colRange (c n : Int) : List Int :=
  (List.range (n - c).toNat).map (fun i : Nat => c + 1 + (i : Int))

/-- The `in_test` the source installs (lines 117-128): with `equal` it is
the room-to-grow bound `M.ncols() - M.nrows() <= n - k` of line 118,
otherwise constantly true (line 127). -/
def inTest (equal : Bool) (n k : Int) : Mat → Bool :=
  if equal then fun M => decide ((ncols M : Int) - (nrows M : Int) ≤ n - k)
  else fun _ => true

/-- The `out_test` the source installs (lines 117-128): with `equal` it is
`C.dimension() == k and C.length() == n` of line 121, otherwise constantly
true (line 128). -/
def outTest (equal : Bool) (n k : Int) : Mat → Bool :=
  if equal then fun C => decide ((nrows C : Int) = k) && decide ((ncols C : Int) = n)
  else fun _ => true

/-- The validation condition of line 105 (`b` is an integer here, so the
`int(b) != b` conjunct is vacuous): `b % 2 == 1 or b <= 0`. -/
def invalidB (b : Int) : Bool := (b % 2 == 1) || decide (b ≤ 0)

/-- The message of the `ValueError` of line 106,
`"b (%s) must be a positive even integer."%b`. -/
def validMsg (b : Int) : String :=
  "b (" ++ toString b ++ ") must be a positive even integer."

/-- The degenerate-input condition of line 113: `k < 1 or n < 2`. -/
def degenerate (n k : Int) : Bool := decide (k < 1) || decide (n < 2)

/-- One `BC.generate_children(BinaryCode(parent), nn, d)` invocation
(line 153), recorded observationally. -/
structure ChildCall where
  parent : Mat
  target : Int
  divisor : Int
deriving DecidableEq

/-- Result of a run: the yielded codes, the visited recursion nodes, and
the classifier invocations, in traversal order. -/
abbrev SocRes := List Mat × List Mat × List ChildCall

/-- Sequencing of the `for`-loops that both iterate and yield: run `f` over
`l`, concatenating yields/visits/calls, stopping at the first error (a
Python exception aborts the generator at the point it occurs). -/
def trFlatMap {α : Type} (l : List α) (f : α → Except String SocRes) :
    Except String SocRes :=
  match l with
  | [] => .ok ([], [], [])
  | a :: t =>
    match f a with
    | .error e => .error e
    | .ok r₁ =>
      match trFlatMap t f with
      | .error e => .error e
      | .ok r₂ => .ok (r₁.1 ++ r₂.1, r₁.2.1 ++ r₂.2.1, r₁.2.2 ++ r₂.2.2)

/-- Shallow embedding of `self_orthogonal_binary_codes(n, k, b, parent, BC,
equal, in_test)` (src/commented/databases.py, lines 8-158).

`children` stands for the classifier instance `BC` (threaded unchanged, as
the source does); `fuel` bounds the recursion depth and models Python's
recursion limit; `parentM` is the `parent` argument; `in_test` is the
caller-supplied argument of the same name, which the body overwrites
(lines 116-128) before any use, exactly as the source does.

Each call revalidates `b` (lines 104-106) and rechecks the degenerate
bounds (lines 113-114), as the source does on every recursive call.
Recursive calls pass `d`, `M`/`child`, `BC` and the overwritten `in_test`
but not `equal`, which therefore reverts to its default `False`
(lines 138 and 154). -/
def self_orthogonal_binary_codes (children : Mat → Int → Int → List Mat)
    (n k b : Int) :
    Nat → Option Mat → Bool → (Mat → Bool) → Except String SocRes
  | 0, _, _, _ =>
    if invalidB b then .error (validMsg b)
    else if degenerate n k then .ok ([], [], [])
    else .error "maximum recursion depth exceeded"
  | fuel + 1, none, equal, _ =>
    if invalidB b then .error (validMsg b)
    else if degenerate n k then .ok ([], [], [])
    else
      -- lines 116-128: these if-else blocks overwrite the input in_test
      let in_test := inTest equal n k
      let out_test := outTest equal n k
      -- lines 131-140: seeding with the 1×j all-ones matrices
      trFlatMap (seedRange b n) (fun j =>
        let M := onesRow j
        if in_test M then
          (self_orthogonal_binary_codes children n k b fuel (some M) false
            in_test).map
            (fun r => (r.1.filter out_test, r.2.1, r.2.2))
        else .ok ([], [], []))
  | fuel + 1, some parentM, equal, _ =>
    if invalidB b then .error (validMsg b)
    else if degenerate n k then .ok ([], [], [])
    else
      let in_test := inTest equal n k
      let out_test := outTest equal n k
      -- lines 142-145: C = LinearCode(parent); if out_test(C): yield C
      let pref := if out_test parentM then [parentM] else []
      -- line 146: if k == parent.nrows(): return
      if k = (nrows parentM : Int) then .ok (pref, [parentM], [])
      else
        -- lines 149-158
        (trFlatMap (colRange (ncols parentM : Int) n) (fun nn =>
          if in_test parentM then
            (trFlatMap (children parentM nn b) (fun child =>
              (self_orthogonal_binary_codes children n k b fuel (some child)
                false in_test).map
                (fun r => (r.1.filter out_test, r.2.1, r.2.2)))).map
              (fun r => (r.1, r.2.1, ChildCall.mk parentM nn b :: r.2.2))
          else .ok ([], [], []))).map
          (fun r => (pref ++ r.1, parentM :: r.2.1, r.2.2))

/-- Matrix used as the single child the mock classifier below returns:
a 2×4 generator matrix extending the seed `[[1,1]]`. -/
def cexM2 : Mat := [[true, true, false, false], [false, false, true, true]]

/-- A concrete classifier (meeting the one-more-row part of the contract)
that extends the seed `[[1,1]]` to `cexM2` at target 4 and returns nothing
elsewhere. -/
def cexChildren : Mat → Int → Int → List Mat :=
  fun P t _ => if P = onesRow 2 ∧ t = 4 then [cexM2] else []

/-- Permutation equivalence of generator matrices, following the spec
glossary: two codes are equivalent when one's generator matrix becomes the
other's under a permutation of its columns (column counts agree). -/
def permEquivalent (M N : Mat) : Prop :=
  ncols M = ncols N ∧ ∃ σ : Equiv.Perm (Fin (ncols M)),
    N = M.map (fun r =>
      List.ofFn (fun i : Fin (ncols M) => r.getD ((σ i) : Nat) false))

instance (M N : Mat) : Decidable (permEquivalent M N) := by
  unfold permEquivalent; infer_instance

/-- Generator matrix of a one-dimensional self-orthogonal doubly-even-free
code with a zero coordinate: the `[3, 1]` code spanned by `1 1 0`. -/
def cexTarget : Mat := [[true, true, false]]

/-- `M` lies in the generation tree below `P`: it is `P` itself or is
produced from `P` by a chain of classifier extensions with divisor `b`. -/
inductive Reaches (children : Mat → Int → Int → List Mat) (b : Int) :
    Mat → Mat → Prop where
  | refl (P : Mat) : Reaches children b P P
  | step (P C M : Mat) (t : Int) (hC : C ∈ children P t b)
      (h : Reaches children b C M) : Reaches children b P M

instance {e a : Type} [DecidableEq e] [DecidableEq a] :
    DecidableEq (Except e a)
  | .error x, .error y =>
    if h : x = y then .isTrue (by rw [h])
    else .isFalse (fun hh => h (Except.error.inj hh))
  | .error _, .ok _ => .isFalse (fun hh => Except.noConfusion hh)
  | .ok _, .error _ => .isFalse (fun hh => Except.noConfusion hh)
  | .ok x, .ok y =>
    if h : x = y then .isTrue (by rw [h])
    else .isFalse (fun hh => h (Except.ok.inj hh))

theorem except_map_eq_ok {f : SocRes → SocRes} {x : Except String SocRes}
    {r : SocRes} :
    x.map f = .ok r ↔ ∃ a, x = .ok a ∧ f a = r := by
  cases x with
  | error e => simp [Except.map]
  | ok a => simp [Except.map]

theorem trFlatMap_ok_of_all {α : Type} {l : List α}
    {f : α → Except String SocRes}
    (h : ∀ a ∈ l, ∃ r, f a = .ok r) : ∃ r, trFlatMap l f = .ok r := by
  induction l with
  | nil => exact ⟨([], [], []), rfl⟩
  | cons a t ih =>
    obtain ⟨r₁, hr₁⟩ := h a (List.mem_cons_self a t)
    obtain ⟨r₂, hr₂⟩ := ih (fun x hx => h x (List.mem_cons_of_mem a hx))
    exact ⟨(r₁.1 ++ r₂.1, r₁.2.1 ++ r₂.2.1, r₁.2.2 ++ r₂.2.2),
      by simp [trFlatMap, hr₁, hr₂]⟩

theorem trFlatMap_all_ok {α : Type} {l : List α}
    {f : α → Except String SocRes} {r : SocRes}
    (h : trFlatMap l f = .ok r) : ∀ a ∈ l, ∃ ra, f a = .ok ra := by
  induction l generalizing r with
  | nil => simp
  | cons a t ih =>
    intro x hx
    rw [trFlatMap] at h
    cases hfa : f a with
    | error e => rw [hfa] at h; exact absurd h (by simp)
    | ok r₁ =>
      rw [hfa] at h
      cases hft : trFlatMap t f with
      | error e => rw [hft] at h; exact absurd h (by simp)
      | ok r₂ =>
        rcases List.mem_cons.mp hx with rfl | hx'
        · exact ⟨r₁, hfa⟩
        · exact ih hft x hx'

theorem trFlatMap_cons_ok {α : Type} {a : α} {t : List α}
    {f : α → Except String SocRes} {r : SocRes}
    (h : trFlatMap (a :: t) f = .ok r) :
    ∃ r₁ r₂, f a = .ok r₁ ∧ trFlatMap t f = .ok r₂ ∧
      r = (r₁.1 ++ r₂.1, r₁.2.1 ++ r₂.2.1, r₁.2.2 ++ r₂.2.2) := by
  rw [trFlatMap] at h
  cases hfa : f a with
  | error e => rw [hfa] at h; exact absurd h (by simp)
  | ok r₁ =>
    rw [hfa] at h
    cases hft : trFlatMap t f with
    | error e => rw [hft] at h; exact absurd h (by simp)
    | ok r₂ =>
      rw [hft] at h
      exact ⟨r₁, r₂, rfl, rfl, by simpa using h.symm⟩

theorem trFlatMap_mem_yields {α : Type} {l : List α}
    {f : α → Except String SocRes} {r : SocRes}
    (h : trFlatMap l f = .ok r) {M : Mat} (hM : M ∈ r.1) :
    ∃ a ∈ l, ∃ ra, f a = .ok ra ∧ M ∈ ra.1 := by
  induction l generalizing r with
  | nil =>
    rw [trFlatMap] at h
    obtain rfl : r = ([], [], []) := by simpa using h.symm
    simp at hM
  | cons a t ih =>
    obtain ⟨r₁, r₂, hfa, hft, rfl⟩ := trFlatMap_cons_ok h
    rcases List.mem_append.mp hM with h₁ | h₂
    · exact ⟨a, List.mem_cons_self a t, r₁, hfa, h₁⟩
    · obtain ⟨x, hx, rx, hrx, hMx⟩ := ih hft h₂
      exact ⟨x, List.mem_cons_of_mem a hx, rx, hrx, hMx⟩

theorem trFlatMap_mem_visits {α : Type} {l : List α}
    {f : α → Except String SocRes} {r : SocRes}
    (h : trFlatMap l f = .ok r) {M : Mat} (hM : M ∈ r.2.1) :
    ∃ a ∈ l, ∃ ra, f a = .ok ra ∧ M ∈ ra.2.1 := by
  induction l generalizing r with
  | nil =>
    rw [trFlatMap] at h
    obtain rfl : r = ([], [], []) := by simpa using h.symm
    simp at hM
  | cons a t ih =>
    obtain ⟨r₁, r₂, hfa, hft, rfl⟩ := trFlatMap_cons_ok h
    rcases List.mem_append.mp hM with h₁ | h₂
    · exact ⟨a, List.mem_cons_self a t, r₁, hfa, h₁⟩
    · obtain ⟨x, hx, rx, hrx, hMx⟩ := ih hft h₂
      exact ⟨x, List.mem_cons_of_mem a hx, rx, hrx, hMx⟩

theorem trFlatMap_mem_calls {α : Type} {l : List α}
    {f : α → Except String SocRes} {r : SocRes}
    (h : trFlatMap l f = .ok r) {c : ChildCall} (hc : c ∈ r.2.2) :
    ∃ a ∈ l, ∃ ra, f a = .ok ra ∧ c ∈ ra.2.2 := by
  induction l generalizing r with
  | nil =>
    rw [trFlatMap] at h
    obtain rfl : r = ([], [], []) := by simpa using h.symm
    simp at hc
  | cons a t ih =>
    obtain ⟨r₁, r₂, hfa, hft, rfl⟩ := trFlatMap_cons_ok h
    rcases List.mem_append.mp hc with h₁ | h₂
    · exact ⟨a, List.mem_cons_self a t, r₁, hfa, h₁⟩
    · obtain ⟨x, hx, rx, hrx, hcx⟩ := ih hft h₂
      exact ⟨x, List.mem_cons_of_mem a hx, rx, hrx, hcx⟩

theorem trFlatMap_sub {α : Type} {l : List α} {a : α}
    {f : α → Except String SocRes} {r ra : SocRes}
    (hl : a ∈ l) (h : trFlatMap l f = .ok r) (hfa : f a = .ok ra) :
    (∀ M ∈ ra.1, M ∈ r.1) ∧ (∀ M ∈ ra.2.1, M ∈ r.2.1) ∧
      (∀ c ∈ ra.2.2, c ∈ r.2.2) := by
  induction l generalizing r with
  | nil => simp at hl
  | cons x t ih =>
    obtain ⟨r₁, r₂, hfx, hft, rfl⟩ := trFlatMap_cons_ok h
    rcases List.mem_cons.mp hl with rfl | hl'
    · rw [hfx] at hfa
      obtain rfl : r₁ = ra := by simpa using hfa
      exact ⟨fun M hM => List.mem_append.mpr (Or.inl hM),
        fun M hM => List.mem_append.mpr (Or.inl hM),
        fun c hc => List.mem_append.mpr (Or.inl hc)⟩
    · obtain ⟨h1, h2, h3⟩ := ih hl' hft
      exact ⟨fun M hM => List.mem_append.mpr (Or.inr (h1 M hM)),
        fun M hM => List.mem_append.mpr (Or.inr (h2 M hM)),
        fun c hc => List.mem_append.mpr (Or.inr (h3 c hc))⟩

theorem trFlatMap_congr_ok {α : Type} {l : List α}
    {f g : α → Except String SocRes} {r : SocRes}
    (hfg : ∀ a ∈ l, ∀ ra, f a = .ok ra → g a = .ok ra)
    (h : trFlatMap l f = .ok r) : trFlatMap l g = .ok r := by
  induction l generalizing r with
  | nil => simpa [trFlatMap] using h
  | cons a t ih =>
    obtain ⟨r₁, r₂, hfa, hft, rfl⟩ := trFlatMap_cons_ok h
    have hga := hfg a (List.mem_cons_self a t) r₁ hfa
    have hgt := ih (fun x hx => hfg x (List.mem_cons_of_mem a hx)) hft
    simp [trFlatMap, hga, hgt]

theorem mem_seedRange {d n j : Int} (hd : 0 < d) :
    j ∈ seedRange d n ↔ 0 < j ∧ d ∣ j ∧ j ≤ n := by
  have hD : ((d.toNat : Nat) : Int) = d := Int.toNat_of_nonneg hd.le
  have hDpos : 0 < d.toNat := by omega
  constructor
  · intro hj
    obtain ⟨i, hi, rfl⟩ := List.mem_map.mp hj
    have hi' : i < n.toNat / d.toNat := List.mem_range.mp hi
    have h1 : (i + 1) * d.toNat ≤ n.toNat :=
      (Nat.le_div_iff_mul_le hDpos).mp (by omega)
    have h2 : ((i : Int) + 1) * d ≤ (n.toNat : Int) := by
      rw [show ((i : Int) + 1) * d = (((i + 1) * d.toNat : Nat) : Int) by
        push_cast [hD]; ring]
      exact_mod_cast h1
    have hipos : (0 : Int) < (i : Int) + 1 := by positivity
    have hn : 0 < n.toNat := by
      calc 0 < (i + 1) * d.toNat := by positivity
        _ ≤ n.toNat := h1
    refine ⟨mul_pos hd hipos, dvd_mul_right d ((i : Int) + 1), ?_⟩
    calc d * ((i : Int) + 1) = ((i : Int) + 1) * d := by ring
      _ ≤ (n.toNat : Int) := h2
      _ = n := by omega
  · rintro ⟨hj, ⟨m, rfl⟩, hjn⟩
    have hm : 0 < m := by
      by_contra h
      push_neg at h
      nlinarith
    apply List.mem_map.mpr
    refine ⟨m.toNat - 1, List.mem_range.mpr ?_, ?_⟩
    · have hcast : ((m.toNat * d.toNat : Nat) : Int) = m * d := by
        push_cast [hD, Int.toNat_of_nonneg hm.le]; ring
      have hmd : m * d ≤ n := by rw [mul_comm]; exact hjn
      have hmn : m.toNat * d.toNat ≤ n.toNat := by omega
      have := (Nat.le_div_iff_mul_le hDpos).mpr hmn
      omega
    · have hm1 : ((m.toNat - 1 : Nat) : Int) = m - 1 := by omega
      rw [hm1]; ring

theorem mem_colRange {c n t : Int} : t ∈ colRange c n ↔ c < t ∧ t ≤ n := by
  constructor
  · intro ht
    obtain ⟨i, hi, rfl⟩ := List.mem_map.mp ht
    have hi' := List.mem_range.mp hi
    omega
  · intro h
    exact List.mem_map.mpr
      ⟨(t - c - 1).toNat, List.mem_range.mpr (by omega), by omega⟩

theorem soc_zero (children : Mat → Int → Int → List Mat) (n k b : Int)
    (pm : Option Mat) (e : Bool) (p : Mat → Bool) :
    self_orthogonal_binary_codes children n k b 0 pm e p =
      if invalidB b then .error (validMsg b)
      else if degenerate n k then .ok ([], [], [])
      else .error "maximum recursion depth exceeded" := by
  cases pm <;> rfl

theorem soc_none (children : Mat → Int → Int → List Mat) (n k b : Int)
    (fuel : Nat) (e : Bool) (p : Mat → Bool)
    (h1 : invalidB b = false) (h2 : degenerate n k = false) :
    self_orthogonal_binary_codes children n k b (fuel + 1) none e p =
      trFlatMap (seedRange b n) (fun j =>
        if inTest e n k (onesRow j) then
          (self_orthogonal_binary_codes children n k b fuel (some (onesRow j))
            false (inTest e n k)).map
            (fun r => (r.1.filter (outTest e n k), r.2.1, r.2.2))
        else .ok ([], [], [])) := by
  rw [self_orthogonal_binary_codes]
  simp only [h1, h2, Bool.false_eq_true, if_false]

theorem soc_some_stop (children : Mat → Int → Int → List Mat) (n k b : Int)
    (fuel : Nat) (P : Mat) (e : Bool) (p : Mat → Bool)
    (h1 : invalidB b = false) (h2 : degenerate n k = false)
    (hk : k = (nrows P : Int)) :
    self_orthogonal_binary_codes children n k b (fuel + 1) (some P) e p =
      .ok (if outTest e n k P then [P] else [], [P], []) := by
  rw [self_orthogonal_binary_codes]
  simp only [h1, h2, Bool.false_eq_true, if_false]
  rw [if_pos hk]

theorem soc_some_go (children : Mat → Int → Int → List Mat) (n k b : Int)
    (fuel : Nat) (P : Mat) (e : Bool) (p : Mat → Bool)
    (h1 : invalidB b = false) (h2 : degenerate n k = false)
    (hk : ¬ k = (nrows P : Int)) :
    self_orthogonal_binary_codes children n k b (fuel + 1) (some P) e p =
      (trFlatMap (colRange (ncols P : Int) n) (fun nn =>
        if inTest e n k P then
          (trFlatMap (children P nn b) (fun child =>
            (self_orthogonal_binary_codes children n k b fuel (some child)
              false (inTest e n k)).map
              (fun r => (r.1.filter (outTest e n k), r.2.1, r.2.2)))).map
            (fun r => (r.1, r.2.1, ChildCall.mk P nn b :: r.2.2))
        else .ok ([], [], []))).map
        (fun r => ((if outTest e n k P then [P] else []) ++ r.1,
          P :: r.2.1, r.2.2)) := by
  rw [self_orthogonal_binary_codes]
  simp only [h1, h2, Bool.false_eq_true, if_false]
  rw [if_neg hk]

theorem inTest_false_eq (n k : Int) (M : Mat) : inTest false n k M = true := rfl

theorem outTest_false_eq (n k : Int) (M : Mat) : outTest false n k M = true := rfl

theorem inTest_true_iff (n k : Int) (M : Mat) :
    inTest true n k M = true ↔ (ncols M : Int) - (nrows M : Int) ≤ n - k := by
  simp [inTest]

theorem outTest_true_iff (n k : Int) (M : Mat) :
    outTest true n k M = true ↔ (nrows M : Int) = k ∧ (ncols M : Int) = n := by
  simp [outTest]

theorem soc_ok_shape {children : Mat → Int → Int → List Mat} {n k b : Int}
    {fuel : Nat} {pm : Option Mat} {e : Bool} {p : Mat → Bool} {r : SocRes}
    (h : self_orthogonal_binary_codes children n k b fuel pm e p = .ok r) :
    invalidB b = false ∧
      (degenerate n k = true → r = ([], [], [])) ∧
      (degenerate n k = false → ∃ f, fuel = f + 1) := by
  by_cases h1 : invalidB b
  · exfalso
    cases fuel with
    | zero => rw [soc_zero] at h; simp [h1] at h
    | succ f =>
      cases pm <;> (rw [self_orthogonal_binary_codes] at h; simp [h1] at h)
  · refine ⟨by simpa using h1, ?_, ?_⟩
    · intro h2
      cases fuel with
      | zero =>
        rw [soc_zero, if_neg h1, if_pos h2] at h
        exact (Except.ok.inj h).symm
      | succ f =>
        cases pm with
        | none =>
          rw [self_orthogonal_binary_codes, if_neg h1, if_pos h2] at h
          exact (Except.ok.inj h).symm
        | some P =>
          rw [self_orthogonal_binary_codes, if_neg h1, if_pos h2] at h
          exact (Except.ok.inj h).symm
    · intro h2
      cases fuel with
      | zero => exfalso; rw [soc_zero, if_neg h1, if_neg (by simp [h2])] at h; exact Except.noConfusion h
      | succ f => exact ⟨f, rfl⟩

/-- C5: for every `b` that is odd, zero, or negative, and for all `n`, `k`,
`equal` (and any caller-supplied `in_test` and any recursion budget),
`enumerate` produces no value and fails with exactly the message
`"b (%d) must be a positive even integer."` with the decimal rendering of
`b` substituted (`validMsg b`); in the embedding an erroring run yields
nothing. -/
theorem C5_invalid_b_errors (children : Mat → Int → Int → List Mat)
    (n k b : Int) (fuel : Nat) (equal : Bool) (p : Mat → Bool)
    (hb : b % 2 = 1 ∨ b = 0 ∨ b < 0) :
    self_orthogonal_binary_codes children n k b fuel none equal p =
      .error (validMsg b) := by
  have h : invalidB b = true := by
    unfold invalidB
    rcases hb with h | h | h
    · simp [h]
    · simp [h]
    · simp [h]; omega
  cases fuel with
  | zero => rw [soc_zero, if_pos h]
  | succ f => rw [self_orthogonal_binary_codes, if_pos h]

/-- Witness for C5 at `b = 1`, `n = 8`, `k = 4`, `equal = true`: the exact
error string of the docstring example (line 99 of the source). -/
theorem C5_invalid_b_errors_witness :
    ((1 : Int) % 2 = 1 ∨ (1 : Int) = 0 ∨ (1 : Int) < 0) ∧
    self_orthogonal_binary_codes (fun _ _ _ => []) 8 4 1 3 none true
      (fun _ => true) = .error "b (1) must be a positive even integer." := by
  refine ⟨Or.inl (by decide), ?_⟩
  rw [C5_invalid_b_errors (fun _ _ _ => []) 8 4 1 3 true (fun _ => true)
    (Or.inl (by decide))]
  exact congrArg Except.error (by decide)

/-- C6: for every valid `b` (positive and even), if `k < 1` or `n < 2` the
run returns successfully with no yields (and no visits and no classifier
calls), for any `equal`, caller-supplied `in_test`, and recursion budget. -/
theorem C6_degenerate_empty (children : Mat → Int → Int → List Mat)
    (n k b : Int) (fuel : Nat) (equal : Bool) (p : Mat → Bool)
    (hb1 : 0 < b) (hb2 : b % 2 = 0) (hdeg : k < 1 ∨ n < 2) :
    self_orthogonal_binary_codes children n k b fuel none equal p =
      .ok ([], [], []) := by
  have h1 : ¬ (invalidB b = true) := by
    unfold invalidB; simp [hb2]; omega
  have h2 : degenerate n k = true := by
    unfold degenerate; rcases hdeg with h | h <;> simp [h]
  cases fuel with
  | zero => rw [soc_zero, if_neg h1, if_pos h2]
  | succ f => rw [self_orthogonal_binary_codes, if_neg h1, if_pos h2]

/-- Witness for C6 at `b = 2`, `k = 0`, `n = 5`. -/
theorem C6_degenerate_empty_witness :
    0 < (2 : Int) ∧ (2 : Int) % 2 = 0 ∧ ((0 : Int) < 1 ∨ (5 : Int) < 2) ∧
    self_orthogonal_binary_codes (fun _ _ _ => []) 5 0 2 7 none false
      (fun _ => true) = .ok ([], [], []) :=
  ⟨by decide, by decide, Or.inl (by decide),
    C6_degenerate_empty (fun _ _ _ => []) 5 0 2 7 false (fun _ => true)
      (by decide) (by decide) (Or.inl (by decide))⟩

/-- C10: the caller-supplied `in_test` argument has no effect on the
result: both branches of the `if equal` block overwrite it before any use,
so two top-level calls differing only in that argument return identical
results. -/
theorem C10_in_test_no_effect (children : Mat → Int → Int → List Mat)
    (n k b : Int) (fuel : Nat) (equal : Bool) (p q : Mat → Bool) :
    self_orthogonal_binary_codes children n k b fuel none equal p =
      self_orthogonal_binary_codes children n k b fuel none equal q := by
  cases fuel with
  | zero => rfl
  | succ f => rw [self_orthogonal_binary_codes, self_orthogonal_binary_codes]

/-- C4: with `equal = true` and any classifier, every yielded code has
dimension exactly `k` and length exactly `n`: all yields pass the
top-level `out_test` filter of line 139, which with `equal` is the exact
size test of line 121. -/
theorem C4_equal_true_exact (children : Mat → Int → Int → List Mat)
    (n k b : Int) (fuel : Nat) (p : Mat → Bool)
    (ys vs : List Mat) (cs : List ChildCall)
    (hrun : self_orthogonal_binary_codes children n k b fuel none true p =
      .ok (ys, vs, cs)) :
    ∀ M ∈ ys, (nrows M : Int) = k ∧ (ncols M : Int) = n := by
  intro M hM
  obtain ⟨h1, hdeg, hfuel⟩ := soc_ok_shape hrun
  by_cases h2 : degenerate n k
  · have hempty := hdeg h2
    have : ys = [] := by simpa using congrArg Prod.fst hempty
    subst this
    simp at hM
  · obtain ⟨f, rfl⟩ := hfuel (by simpa using h2)
    rw [soc_none children n k b f true p h1 (by simpa using h2)] at hrun
    obtain ⟨j, hj, ra, hra, hMra⟩ := trFlatMap_mem_yields hrun hM
    by_cases hin : inTest true n k (onesRow j) = true
    · rw [if_pos hin] at hra
      obtain ⟨a, ha, rfl⟩ := except_map_eq_ok.mp hra
      have hmf := List.mem_filter.mp hMra
      exact (outTest_true_iff n k M).mp hmf.2
    · rw [if_neg hin] at hra
      have hra' : ra = ([], [], []) := (Except.ok.inj hra).symm
      rw [hra'] at hMra
      simp at hMra

/-- Witness for C4 at `n = 2`, `k = 1`, `b = 2`: the run yields exactly
the seed `[[1,1]]`, which has dimension 1 and length 2. -/
theorem C4_equal_true_exact_witness :
    (nrows (onesRow 2) : Int) = 1 ∧ (ncols (onesRow 2) : Int) = 2 :=
  C4_equal_true_exact (fun _ _ _ => []) 2 1 2 2 (fun _ => true)
    [onesRow 2] [onesRow 2] [] (by decide)
    (onesRow 2) (List.mem_singleton_self _)

theorem soc_mono (children : Mat → Int → Int → List Mat) (n k b : Int) :
    ∀ fuel₁ fuel₂ : Nat, fuel₁ ≤ fuel₂ →
    ∀ (pm : Option Mat) (e : Bool) (p : Mat → Bool) (r : SocRes),
    self_orthogonal_binary_codes children n k b fuel₁ pm e p = .ok r →
    self_orthogonal_binary_codes children n k b fuel₂ pm e p = .ok r := by
  intro fuel₁
  induction fuel₁ with
  | zero =>
    intro fuel₂ hle pm e p r h
    obtain ⟨h1, hdeg, hfuel⟩ := soc_ok_shape h
    by_cases h2 : degenerate n k
    · have hr : r = ([], [], []) := hdeg h2
      subst hr
      cases fuel₂ with
      | zero => exact h
      | succ f₂ =>
        cases pm <;>
          rw [self_orthogonal_binary_codes, if_neg (by simp [h1]), if_pos h2]
    · obtain ⟨f, hf⟩ := hfuel (by simpa using h2)
      exact absurd hf (by omega)
  | succ f ih =>
    intro fuel₂ hle pm e p r h
    obtain ⟨f₂, rfl⟩ : ∃ f₂, fuel₂ = f₂ + 1 := ⟨fuel₂ - 1, by omega⟩
    have hff : f ≤ f₂ := by omega
    obtain ⟨h1, hdeg, -⟩ := soc_ok_shape h
    by_cases h2 : degenerate n k
    · have hr : r = ([], [], []) := hdeg h2
      subst hr
      cases pm <;>
        rw [self_orthogonal_binary_codes, if_neg (by simp [h1]), if_pos h2]
    · have h2' : degenerate n k = false := by simpa using h2
      cases pm with
      | none =>
        rw [soc_none children n k b f e p h1 h2'] at h
        rw [soc_none children n k b f₂ e p h1 h2']
        apply trFlatMap_congr_ok ?_ h
        intro j hj ra hra
        by_cases hin : inTest e n k (onesRow j) = true
        · rw [if_pos hin] at hra ⊢
          rw [except_map_eq_ok] at hra ⊢
          obtain ⟨a, ha, hfa⟩ := hra
          exact ⟨a, ih f₂ hff _ _ _ _ ha, hfa⟩
        · rw [if_neg hin] at hra ⊢
          exact hra
      | some P =>
        by_cases hk : k = (nrows P : Int)
        · rw [soc_some_stop children n k b f P e p h1 h2' hk] at h
          rw [soc_some_stop children n k b f₂ P e p h1 h2' hk]
          exact h
        · rw [soc_some_go children n k b f P e p h1 h2' hk] at h
          rw [soc_some_go children n k b f₂ P e p h1 h2' hk]
          rw [except_map_eq_ok] at h ⊢
          obtain ⟨a, ha, hfa⟩ := h
          refine ⟨a, trFlatMap_congr_ok ?_ ha, hfa⟩
          intro nn hnn ra hra
          by_cases hin : inTest e n k P = true
          · rw [if_pos hin] at hra ⊢
            rw [except_map_eq_ok] at hra ⊢
            obtain ⟨a2, ha2, hfa2⟩ := hra
            refine ⟨a2, trFlatMap_congr_ok ?_ ha2, hfa2⟩
            intro child hchild ra2 hra2
            rw [except_map_eq_ok] at hra2 ⊢
            obtain ⟨a3, ha3, hfa3⟩ := hra2
            exact ⟨a3, ih f₂ hff _ _ _ _ ha3, hfa3⟩
          · rw [if_neg hin] at hra ⊢
            exact hra

theorem soc_ok_of_fuel (children : Mat → Int → Int → List Mat) (n k b : Int)
    (Hrows : ∀ P t, ∀ C ∈ children P t b, nrows C = nrows P + 1)
    (h1 : invalidB b = false) (h2 : degenerate n k = false) :
    ∀ (fuel : Nat) (P : Mat) (p : Mat → Bool), nrows P ≤ k.toNat →
    k.toNat - nrows P < fuel →
    ∃ r, self_orthogonal_binary_codes children n k b fuel (some P) false p =
      .ok r := by
  have hk1 : 1 ≤ k ∧ 2 ≤ n := by unfold degenerate at h2; simp at h2; omega
  intro fuel
  induction fuel with
  | zero => intro P p hP hlt; omega
  | succ f ih =>
    intro P p hP hlt
    by_cases hk : k = (nrows P : Int)
    · exact ⟨_, soc_some_stop children n k b f P false p h1 h2 hk⟩
    · rw [soc_some_go children n k b f P false p h1 h2 hk]
      have hPk : nrows P < k.toNat := by omega
      obtain ⟨a, ha⟩ : ∃ a, trFlatMap (colRange (ncols P : Int) n) (fun nn =>
          if inTest false n k P then
            (trFlatMap (children P nn b) (fun child =>
              (self_orthogonal_binary_codes children n k b f (some child)
                false (inTest false n k)).map
                (fun r => (r.1.filter (outTest false n k), r.2.1, r.2.2)))).map
              (fun r => (r.1, r.2.1, ChildCall.mk P nn b :: r.2.2))
          else .ok ([], [], [])) = .ok a := by
        apply trFlatMap_ok_of_all
        intro nn hnn
        rw [if_pos (inTest_false_eq n k P)]
        obtain ⟨a2, ha2⟩ : ∃ a2, trFlatMap (children P nn b) (fun child =>
            (self_orthogonal_binary_codes children n k b f (some child)
              false (inTest false n k)).map
              (fun r => (r.1.filter (outTest false n k), r.2.1, r.2.2))) =
            .ok a2 := by
          apply trFlatMap_ok_of_all
          intro child hchild
          have hc : nrows child = nrows P + 1 := Hrows P nn child hchild
          obtain ⟨r3, hr3⟩ :=
            ih child (inTest false n k) (by omega) (by omega)
          rw [hr3]
          exact ⟨_, rfl⟩
        rw [ha2]
        exact ⟨_, rfl⟩
      rw [ha]
      exact ⟨_, rfl⟩

/-- C9: for valid `b` and any classifier whose children always have exactly
one more row than the parent and the requested number of columns, the
enumeration terminates: some finite result is produced, and a recursion
budget of `k + 1` frames (the top frame plus at most `k` nested frames,
i.e. recursion depth at most `k`) is sufficient — every budget at least
that large succeeds with the same result. -/
theorem C9_terminates (children : Mat → Int → Int → List Mat)
    (n k b : Int) (equal : Bool) (p : Mat → Bool)
    (hb1 : 0 < b) (hb2 : b % 2 = 0)
    (Hrows : ∀ P t, ∀ C ∈ children P t b, nrows C = nrows P + 1)
    (Hcols : ∀ P t, ∀ C ∈ children P t b, (ncols C : Int) = t) :
    ∃ r, ∀ fuel : Nat, k.toNat + 1 ≤ fuel →
      self_orthogonal_binary_codes children n k b fuel none equal p =
        .ok r := by
  have h1 : invalidB b = false := by unfold invalidB; simp [hb2]; omega
  by_cases h2 : degenerate n k
  · refine ⟨([], [], []), fun fuel hf => ?_⟩
    cases fuel with
    | zero => rw [soc_zero, if_neg (by simp [h1]), if_pos h2]
    | succ f =>
      rw [self_orthogonal_binary_codes, if_neg (by simp [h1]), if_pos h2]
  · have h2' : degenerate n k = false := by simpa using h2
    have hk1 : 1 ≤ k ∧ 2 ≤ n := by unfold degenerate at h2'; simp at h2'; omega
    have hbase : ∃ r,
        self_orthogonal_binary_codes children n k b (k.toNat + 1) none equal
          p = .ok r := by
      rw [soc_none children n k b k.toNat equal p h1 h2']
      apply trFlatMap_ok_of_all
      intro j hj
      by_cases hin : inTest equal n k (onesRow j) = true
      · rw [if_pos hin]
        obtain ⟨r, hr⟩ := soc_ok_of_fuel children n k b Hrows h1 h2' k.toNat
          (onesRow j) (inTest equal n k)
          (by simp only [onesRow, nrows, List.length_singleton]; omega)
          (by simp only [onesRow, nrows, List.length_singleton]; omega)
        rw [hr]
        exact ⟨_, rfl⟩
      · rw [if_neg hin]
        exact ⟨_, rfl⟩
    obtain ⟨r, hr⟩ := hbase
    exact ⟨r, fun fuel hf =>
      soc_mono children n k b (k.toNat + 1) fuel hf none equal p r hr⟩

/-- Witness for C9 with the classifier that returns no children, at
`n = 7`, `k = 3`, `b = 2`. -/
theorem C9_terminates_witness :
    0 < (2 : Int) ∧ (2 : Int) % 2 = 0 ∧
    ∃ r, ∀ fuel : Nat, (3 : Int).toNat + 1 ≤ fuel →
      self_orthogonal_binary_codes (fun _ _ _ => []) 7 3 2 fuel none false
        (fun _ => true) = .ok r :=
  ⟨by decide, by decide,
    C9_terminates (fun _ _ _ => []) 7 3 2 false (fun _ => true)
      (by decide) (by decide)
      (fun P t C hC => absurd hC (List.not_mem_nil C))
      (fun P t C hC => absurd hC (List.not_mem_nil C))⟩

theorem zipWith_and_self (l : List Bool) :
    List.zipWith (fun x y => x && y) l l = l := by
  induction l with
  | nil => rfl
  | cons a t ih => simp [List.zipWith, ih]

theorem dot_self_eq_weight (r : List Bool) : dot r r = weight r := by
  rw [dot, zipWith_and_self]; rfl

theorem ncols_onesRow (j : Int) : ncols (onesRow j) = j.toNat := by
  simp [onesRow, ncols]

theorem nrows_onesRow (j : Int) : nrows (onesRow j) = 1 := rfl

theorem weight_onesRow (j : Int) :
    ∀ r ∈ onesRow j, weight r = j.toNat := by
  intro r hr
  have : r = List.replicate j.toNat true := by simpa [onesRow] using hr
  subst this
  simp [weight]

theorem soc_frame_inv (children : Mat → Int → Int → List Mat) (n k b : Int)
    (Hchild : ∀ P t, ∀ C ∈ children P t b,
      nrows C = nrows P + 1 ∧ (ncols C : Int) = t ∧
        rowsDivisible b C ∧ selfOrth C)
    (h1 : invalidB b = false) (h2 : degenerate n k = false) :
    ∀ (fuel : Nat) (P : Mat) (e : Bool) (p : Mat → Bool) (r : SocRes),
    codeInvariant n k b P →
    self_orthogonal_binary_codes children n k b fuel (some P) e p = .ok r →
    (∀ M ∈ r.1, codeInvariant n k b M) ∧
      (∀ M ∈ r.2.1, codeInvariant n k b M) := by
  intro fuel
  induction fuel with
  | zero =>
    intro P e p r hP h
    rw [soc_zero, if_neg (by simp [h1]), if_neg (by simp [h2])] at h
    exact Except.noConfusion h
  | succ f ih =>
    intro P e p r hP h
    by_cases hk : k = (nrows P : Int)
    · rw [soc_some_stop children n k b f P e p h1 h2 hk] at h
      have hr : r = (if outTest e n k P then [P] else [], [P], []) :=
        (Except.ok.inj h).symm
      subst hr
      constructor
      · intro M hM
        have hMP : M = P := by
          by_cases ho : outTest e n k P = true
          · rw [if_pos ho] at hM; simpa using hM
          · rw [if_neg ho] at hM; simp at hM
        exact hMP ▸ hP
      · intro M hM
        have hMP : M = P := by simpa using hM
        exact hMP ▸ hP
    · rw [soc_some_go children n k b f P e p h1 h2 hk] at h
      rw [except_map_eq_ok] at h
      obtain ⟨a, ha, hfa⟩ := h
      subst hfa
      constructor
      · intro M hM
        rcases List.mem_append.mp hM with hM1 | hM2
        · have hMP : M = P := by
            by_cases ho : outTest e n k P = true
            · rw [if_pos ho] at hM1; simpa using hM1
            · rw [if_neg ho] at hM1; simp at hM1
          exact hMP ▸ hP
        · obtain ⟨nn, hnn, ra, hra, hMa⟩ := trFlatMap_mem_yields ha hM2
          by_cases hin : inTest e n k P = true
          · rw [if_pos hin] at hra
            rw [except_map_eq_ok] at hra
            obtain ⟨a2, ha2, hfa2⟩ := hra
            subst hfa2
            obtain ⟨child, hchild, ra3, hra3, hMa3⟩ :=
              trFlatMap_mem_yields ha2 hMa
            rw [except_map_eq_ok] at hra3
            obtain ⟨a3, ha3, hfa3⟩ := hra3
            subst hfa3
            have hMa3' : M ∈ a3.1 := (List.mem_filter.mp hMa3).1
            have hcinv : codeInvariant n k b child := by
              obtain ⟨hc1, hc2, hc3, hc4⟩ := Hchild P nn child hchild
              obtain ⟨hnn1, hnn2⟩ := mem_colRange.mp hnn
              obtain ⟨-, hPk, -, -⟩ := hP
              refine ⟨by omega, by rw [hc1]; push_cast; omega, hc3, hc4⟩
            exact (ih child false (inTest e n k) a3 hcinv ha3).1 M hMa3'
          · rw [if_neg hin] at hra
            have hra' : ra = ([], [], []) := (Except.ok.inj hra).symm
            rw [hra'] at hMa
            simp at hMa
      · intro M hM
        rcases List.mem_cons.mp hM with hMP | hM2
        · exact hMP ▸ hP
        · obtain ⟨nn, hnn, ra, hra, hMa⟩ := trFlatMap_mem_visits ha hM2
          by_cases hin : inTest e n k P = true
          · rw [if_pos hin] at hra
            rw [except_map_eq_ok] at hra
            obtain ⟨a2, ha2, hfa2⟩ := hra
            subst hfa2
            obtain ⟨child, hchild, ra3, hra3, hMa3⟩ :=
              trFlatMap_mem_visits ha2 hMa
            rw [except_map_eq_ok] at hra3
            obtain ⟨a3, ha3, hfa3⟩ := hra3
            subst hfa3
            have hcinv : codeInvariant n k b child := by
              obtain ⟨hc1, hc2, hc3, hc4⟩ := Hchild P nn child hchild
              obtain ⟨hnn1, hnn2⟩ := mem_colRange.mp hnn
              obtain ⟨-, hPk, -, -⟩ := hP
              refine ⟨by omega, by rw [hc1]; push_cast; omega, hc3, hc4⟩
            exact (ih child false (inTest e n k) a3 hcinv ha3).2 M hMa3
          · rw [if_neg hin] at hra
            have hra' : ra = ([], [], []) := (Except.ok.inj hra).symm
            rw [hra'] at hMa
            simp at hMa

theorem seed_invariant (n k b : Int) (j : Int)
    (hb1 : 0 < b) (hb2 : b % 2 = 0) (h2 : degenerate n k = false)
    (hj : j ∈ seedRange b n) : codeInvariant n k b (onesRow j) := by
  obtain ⟨hj1, hj2, hj3⟩ := (mem_seedRange hb1).mp hj
  have hk1 : 1 ≤ k ∧ 2 ≤ n := by unfold degenerate at h2; simp at h2; omega
  refine ⟨?_, ?_, ?_, ?_⟩
  · rw [ncols_onesRow]; omega
  · rw [nrows_onesRow]; omega
  · intro r hr
    rw [weight_onesRow j r hr]
    have : ((j.toNat : Nat) : Int) = j := by omega
    rw [this]
    exact hj2
  · intro r hr s hs
    have hr' : r = List.replicate j.toNat true := by simpa [onesRow] using hr
    have hs' : s = List.replicate j.toNat true := by simpa [onesRow] using hs
    subst hr'; subst hs'
    rw [dot_self_eq_weight]
    have hw : weight (List.replicate j.toNat true) = j.toNat := by simp [weight]
    rw [hw]
    obtain ⟨m, hm⟩ := hj2
    obtain ⟨bb, hbb⟩ : ∃ bb, b = 2 * bb := ⟨b / 2, by omega⟩
    obtain ⟨c, hc⟩ : ∃ c, j = 2 * c := ⟨bb * m, by rw [hm, hbb]; ring⟩
    omega

/-- C1: for every run with a positive even `b` and a classifier meeting the
stated contract (each child has one more row than its parent, the requested
column count, `b`-divisible row weights, and is self-orthogonal), every
yielded code has length at most `n`, dimension at most `k`, all generator
row weights divisible by `b`, and is self-orthogonal. -/
theorem C1_yield_invariants (children : Mat → Int → Int → List Mat)
    (n k b : Int) (fuel : Nat) (equal : Bool) (p : Mat → Bool)
    (ys vs : List Mat) (cs : List ChildCall)
    (hb1 : 0 < b) (hb2 : b % 2 = 0)
    (Hchild : ∀ P t, ∀ C ∈ children P t b,
      nrows C = nrows P + 1 ∧ (ncols C : Int) = t ∧
        rowsDivisible b C ∧ selfOrth C)
    (hrun : self_orthogonal_binary_codes children n k b fuel none equal p =
      .ok (ys, vs, cs)) :
    ∀ M ∈ ys, (ncols M : Int) ≤ n ∧ (nrows M : Int) ≤ k ∧
      rowsDivisible b M ∧ selfOrth M := by
  intro M hM
  show codeInvariant n k b M
  obtain ⟨h1, hdeg, hfuel⟩ := soc_ok_shape hrun
  by_cases h2 : degenerate n k
  · have hempty := hdeg h2
    have : ys = [] := by simpa using congrArg Prod.fst hempty
    subst this
    simp at hM
  · have h2' : degenerate n k = false := by simpa using h2
    obtain ⟨f, rfl⟩ := hfuel h2'
    rw [soc_none children n k b f equal p h1 h2'] at hrun
    obtain ⟨j, hj, ra, hra, hMra⟩ := trFlatMap_mem_yields hrun hM
    by_cases hin : inTest equal n k (onesRow j) = true
    · rw [if_pos hin] at hra
      rw [except_map_eq_ok] at hra
      obtain ⟨a, ha, hfa⟩ := hra
      subst hfa
      have hMa : M ∈ a.1 := (List.mem_filter.mp hMra).1
      have hseed := seed_invariant n k b j hb1 hb2 h2' hj
      exact (soc_frame_inv children n k b Hchild h1 h2' f (onesRow j) false
        (inTest equal n k) a hseed ha).1 M hMa
    · rw [if_neg hin] at hra
      have hra' : ra = ([], [], []) := (Except.ok.inj hra).symm
      rw [hra'] at hMra
      simp at hMra

/-- Witness for C1 with the empty classifier at `n = 2`, `k = 1`, `b = 2`:
the single yielded code `[[1,1]]` satisfies all four invariants. -/
theorem C1_yield_invariants_witness :
    (ncols (onesRow 2) : Int) ≤ 2 ∧ (nrows (onesRow 2) : Int) ≤ 1 ∧
      rowsDivisible 2 (onesRow 2) ∧ selfOrth (onesRow 2) :=
  C1_yield_invariants (fun _ _ _ => []) 2 1 2 2 false (fun _ => true)
    [onesRow 2] [onesRow 2] [] (by decide) (by decide)
    (fun P t C hC => absurd hC (List.not_mem_nil C)) (by decide)
    (onesRow 2) (List.mem_singleton_self _)

theorem soc_frame_calls (children : Mat → Int → Int → List Mat) (n k b : Int)
    (Hrows : ∀ P t, ∀ C ∈ children P t b, nrows C = nrows P + 1)
    (h1 : invalidB b = false) (h2 : degenerate n k = false) :
    ∀ (fuel : Nat) (P : Mat) (e : Bool) (p : Mat → Bool) (r : SocRes),
    (nrows P : Int) ≤ k →
    self_orthogonal_binary_codes children n k b fuel (some P) e p = .ok r →
    ∀ c ∈ r.2.2,
      (nrows c.parent : Int) < k ∧
      (ncols c.parent : Int) < c.target ∧ c.target ≤ n ∧ c.divisor = b ∧
      (∀ t, (ncols c.parent : Int) < t → t ≤ n →
        ChildCall.mk c.parent t b ∈ r.2.2) := by
  intro fuel
  induction fuel with
  | zero =>
    intro P e p r hP h
    rw [soc_zero, if_neg (by simp [h1]), if_neg (by simp [h2])] at h
    exact Except.noConfusion h
  | succ f ih =>
    intro P e p r hP h
    by_cases hk : k = (nrows P : Int)
    · rw [soc_some_stop children n k b f P e p h1 h2 hk] at h
      have hr : r = (if outTest e n k P then [P] else [], [P], []) :=
        (Except.ok.inj h).symm
      subst hr
      intro c hc
      simp at hc
    · rw [soc_some_go children n k b f P e p h1 h2 hk] at h
      rw [except_map_eq_ok] at h
      obtain ⟨a, ha, hfa⟩ := h
      subst hfa
      intro c hc
      obtain ⟨nn, hnn, ra, hra, hca⟩ := trFlatMap_mem_calls ha hc
      by_cases hin : inTest e n k P = true
      · rw [if_pos hin] at hra
        rw [except_map_eq_ok] at hra
        obtain ⟨a2, ha2, hfa2⟩ := hra
        subst hfa2
        obtain ⟨hnn1, hnn2⟩ := mem_colRange.mp hnn
        rcases List.mem_cons.mp hca with rfl | hca2
        · refine ⟨show (nrows P : Int) < k by omega, hnn1, hnn2, rfl, ?_⟩
          intro t ht1 ht2
          have htr : t ∈ colRange (ncols P : Int) n := mem_colRange.mpr ⟨ht1, ht2⟩
          obtain ⟨rt, hrt⟩ := trFlatMap_all_ok ha t htr
          have hmem : ChildCall.mk P t b ∈ rt.2.2 := by
            rw [if_pos hin] at hrt
            rw [except_map_eq_ok] at hrt
            obtain ⟨at2, hat2, hfat2⟩ := hrt
            subst hfat2
            exact List.mem_cons_self _ _
          have hrt' : (if inTest e n k P = true then
              (trFlatMap (children P t b) (fun child =>
                (self_orthogonal_binary_codes children n k b f (some child)
                  false (inTest e n k)).map
                  (fun r => (r.1.filter (outTest e n k), r.2.1, r.2.2)))).map
                (fun r => (r.1, r.2.1, ChildCall.mk P t b :: r.2.2))
            else .ok ([], [], [])) = .ok rt := by
            rw [if_pos hin]
            rw [if_pos hin] at hrt
            exact hrt
          exact (trFlatMap_sub htr ha hrt').2.2 _ hmem
        · obtain ⟨child, hchild, ra3, hra3, hca3⟩ :=
            trFlatMap_mem_calls ha2 hca2
          rw [except_map_eq_ok] at hra3
          obtain ⟨a3, ha3, hfa3⟩ := hra3
          subst hfa3
          have hchildrows : nrows child = nrows P + 1 := Hrows P nn child hchild
          have hchildk : (nrows child : Int) ≤ k := by
            rw [hchildrows]; push_cast; omega
          obtain ⟨g1, g2, g3, g4, g5⟩ :=
            ih child false (inTest e n k) a3 hchildk ha3 c hca3
          refine ⟨g1, g2, g3, g4, ?_⟩
          intro t ht1 ht2
          have hmem3 : ChildCall.mk c.parent t b ∈ a3.2.2 := g5 t ht1 ht2
          have hra3' : (self_orthogonal_binary_codes children n k b f
              (some child) false (inTest e n k)).map
              (fun r => (r.1.filter (outTest e n k), r.2.1, r.2.2)) =
              .ok (a3.1.filter (outTest e n k), a3.2.1, a3.2.2) := by
            rw [ha3]; rfl
          have hsub2 := (trFlatMap_sub hchild ha2 hra3').2.2
          have hmem2 : ChildCall.mk c.parent t b ∈ a2.2.2 := hsub2 _ hmem3
          have hmem1 : ChildCall.mk c.parent t b ∈
              (ChildCall.mk P nn b :: a2.2.2) := List.mem_cons_of_mem _ hmem2
          have hra' : (if inTest e n k P = true then
              (trFlatMap (children P nn b) (fun child =>
                (self_orthogonal_binary_codes children n k b f (some child)
                  false (inTest e n k)).map
                  (fun r => (r.1.filter (outTest e n k), r.2.1, r.2.2)))).map
                (fun r => (r.1, r.2.1, ChildCall.mk P nn b :: r.2.2))
            else .ok ([], [], [])) =
              .ok (a2.1, a2.2.1, ChildCall.mk P nn b :: a2.2.2) := by
            rw [if_pos hin, ha2]; rfl
          exact (trFlatMap_sub hnn ha hra').2.2 _ hmem1
      · rw [if_neg hin] at hra
        have hra' : ra = ([], [], []) := (Except.ok.inj hra).symm
        rw [hra'] at hca
        simp at hca

/-- C8: in any run with valid `b` and a classifier whose children have one
more row than their parent, every classifier invocation is made for a
parent with fewer than `k` rows (a node with exactly `k` rows is never
expanded), at a target column count strictly between the parent's column
count and `n` inclusive, with divisor `b`; and whenever a parent is asked
at one target, it is asked at every target from `parent.cols + 1` to `n`
inclusive. -/
theorem C8_expansion_targets (children : Mat → Int → Int → List Mat)
    (n k b : Int) (fuel : Nat) (equal : Bool) (p : Mat → Bool)
    (ys vs : List Mat) (cs : List ChildCall)
    (hb1 : 0 < b) (hb2 : b % 2 = 0)
    (Hrows : ∀ P t, ∀ C ∈ children P t b, nrows C = nrows P + 1)
    (hrun : self_orthogonal_binary_codes children n k b fuel none equal p =
      .ok (ys, vs, cs)) :
    ∀ c ∈ cs,
      (nrows c.parent : Int) < k ∧
      (ncols c.parent : Int) < c.target ∧ c.target ≤ n ∧ c.divisor = b ∧
      (∀ t, (ncols c.parent : Int) < t → t ≤ n →
        ChildCall.mk c.parent t b ∈ cs) := by
  intro c hc
  obtain ⟨h1, hdeg, hfuel⟩ := soc_ok_shape hrun
  by_cases h2 : degenerate n k
  · have hempty := hdeg h2
    have : cs = [] := by
      simpa using congrArg (fun r : SocRes => r.2.2) hempty
    subst this
    simp at hc
  · have h2' : degenerate n k = false := by simpa using h2
    have hk1 : 1 ≤ k ∧ 2 ≤ n := by unfold degenerate at h2'; simp at h2'; omega
    obtain ⟨f, rfl⟩ := hfuel h2'
    rw [soc_none children n k b f equal p h1 h2'] at hrun
    obtain ⟨j, hj, ra, hra, hca⟩ := trFlatMap_mem_calls hrun hc
    by_cases hin : inTest equal n k (onesRow j) = true
    · rw [if_pos hin] at hra
      rw [except_map_eq_ok] at hra
      obtain ⟨a, ha, hfa⟩ := hra
      subst hfa
      have hseedrows : (nrows (onesRow j) : Int) ≤ k := by
        rw [nrows_onesRow]; omega
      obtain ⟨g1, g2, g3, g4, g5⟩ := soc_frame_calls children n k b Hrows h1
        h2' f (onesRow j) false (inTest equal n k) a hseedrows ha c hca
      refine ⟨g1, g2, g3, g4, ?_⟩
      intro t ht1 ht2
      have hmem : ChildCall.mk c.parent t b ∈ a.2.2 := g5 t ht1 ht2
      have hra' : (if inTest equal n k (onesRow j) = true then
          (self_orthogonal_binary_codes children n k b f (some (onesRow j))
            false (inTest equal n k)).map
            (fun r => (r.1.filter (outTest equal n k), r.2.1, r.2.2))
        else .ok ([], [], [])) =
          .ok (a.1.filter (outTest equal n k), a.2.1, a.2.2) := by
        rw [if_pos hin, ha]; rfl
      exact (trFlatMap_sub hj hrun hra').2.2 _ hmem
    · rw [if_neg hin] at hra
      have hra' : ra = ([], [], []) := (Except.ok.inj hra).symm
      rw [hra'] at hca
      simp at hca

/-- Witness for C8 with the empty classifier at `n = 3`, `k = 2`, `b = 2`:
the single recorded invocation has the seed `[[1,1]]` (one row, fewer than
`k = 2`) as parent, target 3 and divisor 2, and the requested-target range
`(2, 3]` is fully covered. -/
theorem C8_expansion_targets_witness :
    (nrows (ChildCall.mk (onesRow 2) 3 2).parent : Int) < 2 ∧
    (ncols (ChildCall.mk (onesRow 2) 3 2).parent : Int) <
      (ChildCall.mk (onesRow 2) 3 2).target ∧
    (ChildCall.mk (onesRow 2) 3 2).target ≤ 3 ∧
    (ChildCall.mk (onesRow 2) 3 2).divisor = 2 ∧
    (∀ t, (ncols (ChildCall.mk (onesRow 2) 3 2).parent : Int) < t → t ≤ 3 →
      ChildCall.mk (ChildCall.mk (onesRow 2) 3 2).parent t 2 ∈
        ([ChildCall.mk (onesRow 2) 3 2] : List ChildCall)) :=
  C8_expansion_targets (fun _ _ _ => []) 3 2 2 3 false (fun _ => true)
    [onesRow 2] [onesRow 2] [ChildCall.mk (onesRow 2) 3 2]
    (by decide) (by decide)
    (fun P t C hC => absurd hC (List.not_mem_nil C)) (by decide)
    (ChildCall.mk (onesRow 2) 3 2) (List.mem_singleton_self _)

theorem soc_frame_visits_self (children : Mat → Int → Int → List Mat)
    (n k b : Int) (h1 : invalidB b = false) (h2 : degenerate n k = false)
    (fuel : Nat) (P : Mat) (e : Bool) (p : Mat → Bool) (r : SocRes)
    (h : self_orthogonal_binary_codes children n k b fuel (some P) e p =
      .ok r) : P ∈ r.2.1 := by
  cases fuel with
  | zero =>
    rw [soc_zero, if_neg (by simp [h1]), if_neg (by simp [h2])] at h
    exact Except.noConfusion h
  | succ f =>
    by_cases hk : k = (nrows P : Int)
    · rw [soc_some_stop children n k b f P e p h1 h2 hk] at h
      have hr : r = (if outTest e n k P then [P] else [], [P], []) :=
        (Except.ok.inj h).symm
      subst hr
      simp
    · rw [soc_some_go children n k b f P e p h1 h2 hk] at h
      rw [except_map_eq_ok] at h
      obtain ⟨a, ha, hfa⟩ := h
      subst hfa
      exact List.mem_cons_self _ _

theorem soc_frame_visits_shape (children : Mat → Int → Int → List Mat)
    (n k b : Int)
    (Hrows : ∀ P t, ∀ C ∈ children P t b, nrows C = nrows P + 1)
    (h1 : invalidB b = false) (h2 : degenerate n k = false) :
    ∀ (fuel : Nat) (P : Mat) (e : Bool) (p : Mat → Bool) (r : SocRes),
    self_orthogonal_binary_codes children n k b fuel (some P) e p = .ok r →
    ∀ M ∈ r.2.1, M = P ∨ nrows P < nrows M := by
  intro fuel
  induction fuel with
  | zero =>
    intro P e p r h
    rw [soc_zero, if_neg (by simp [h1]), if_neg (by simp [h2])] at h
    exact Except.noConfusion h
  | succ f ih =>
    intro P e p r h
    by_cases hk : k = (nrows P : Int)
    · rw [soc_some_stop children n k b f P e p h1 h2 hk] at h
      have hr : r = (if outTest e n k P then [P] else [], [P], []) :=
        (Except.ok.inj h).symm
      subst hr
      intro M hM
      left
      simpa using hM
    · rw [soc_some_go children n k b f P e p h1 h2 hk] at h
      rw [except_map_eq_ok] at h
      obtain ⟨a, ha, hfa⟩ := h
      subst hfa
      intro M hM
      rcases List.mem_cons.mp hM with rfl | hM2
      · exact Or.inl rfl
      · obtain ⟨nn, hnn, ra, hra, hMa⟩ := trFlatMap_mem_visits ha hM2
        by_cases hin : inTest e n k P = true
        · rw [if_pos hin] at hra
          rw [except_map_eq_ok] at hra
          obtain ⟨a2, ha2, hfa2⟩ := hra
          subst hfa2
          obtain ⟨child, hchild, ra3, hra3, hMa3⟩ :=
            trFlatMap_mem_visits ha2 hMa
          rw [except_map_eq_ok] at hra3
          obtain ⟨a3, ha3, hfa3⟩ := hra3
          subst hfa3
          have hchildrows : nrows child = nrows P + 1 := Hrows P nn child hchild
          rcases ih child false (inTest e n k) a3 ha3 M hMa3 with rfl | hlt
          · right; omega
          · right; omega
        · rw [if_neg hin] at hra
          have hra' : ra = ([], [], []) := (Except.ok.inj hra).symm
          rw [hra'] at hMa
          simp at hMa

/-- C7: for every valid, non-degenerate call (any `equal`, any classifier
adding one row per child), the one-row nodes visited by the recursion are
exactly the all-ones matrices `onesRow j` for the positive multiples
`j` of `b` with `j ≤ n` that pass `in_test`; every seed is recursed into
if and only if `in_test` accepts it, and every visited one-row node is an
all-ones seed. -/
theorem C7_seeds (children : Mat → Int → Int → List Mat)
    (n k b : Int) (fuel : Nat) (equal : Bool) (p : Mat → Bool)
    (ys vs : List Mat) (cs : List ChildCall)
    (hb1 : 0 < b) (hb2 : b % 2 = 0) (hk : 1 ≤ k) (hn : 2 ≤ n)
    (Hrows : ∀ P t, ∀ C ∈ children P t b, nrows C = nrows P + 1)
    (hrun : self_orthogonal_binary_codes children n k b fuel none equal p =
      .ok (ys, vs, cs)) :
    (∀ j : Int, onesRow j ∈ vs ↔
      0 < j ∧ b ∣ j ∧ j ≤ n ∧ inTest equal n k (onesRow j) = true) ∧
    (∀ M ∈ vs, nrows M = 1 → ∃ j : Int, M = onesRow j) := by
  have h1 : invalidB b = false := by unfold invalidB; simp [hb2]; omega
  have h2' : degenerate n k = false := by unfold degenerate; simp; omega
  obtain ⟨-, -, hfuel⟩ := soc_ok_shape hrun
  obtain ⟨f, rfl⟩ := hfuel h2'
  rw [soc_none children n k b f equal p h1 h2'] at hrun
  have visit_char : ∀ M ∈ vs, nrows M = 1 →
      ∃ j' : Int, j' ∈ seedRange b n ∧ M = onesRow j' ∧
        inTest equal n k (onesRow j') = true := by
    intro M hM hM1
    obtain ⟨j', hj', ra, hra, hMa⟩ := trFlatMap_mem_visits hrun hM
    by_cases hin : inTest equal n k (onesRow j') = true
    · rw [if_pos hin] at hra
      rw [except_map_eq_ok] at hra
      obtain ⟨a, ha, hfa⟩ := hra
      subst hfa
      rcases soc_frame_visits_shape children n k b Hrows h1 h2' f
        (onesRow j') false (inTest equal n k) a ha M hMa with rfl | hlt
      · exact ⟨j', hj', rfl, hin⟩
      · rw [nrows_onesRow] at hlt
        omega
    · rw [if_neg hin] at hra
      have hra' : ra = ([], [], []) := (Except.ok.inj hra).symm
      rw [hra'] at hMa
      simp at hMa
  constructor
  · intro j
    constructor
    · intro hjv
      obtain ⟨j', hj', heq, hin⟩ := visit_char (onesRow j) hjv
        (nrows_onesRow j)
      obtain ⟨hj1, hj2, hj3⟩ := (mem_seedRange hb1).mp hj'
      have hlen : j.toNat = j'.toNat := by
        have := congrArg (fun M : Mat => ncols M) heq
        simpa [ncols_onesRow] using this
      have hjj : j = j' := by omega
      subst hjj
      exact ⟨hj1, hj2, hj3, hin⟩
    · rintro ⟨hj1, hj2, hj3, hin⟩
      have hj : j ∈ seedRange b n := (mem_seedRange hb1).mpr ⟨hj1, hj2, hj3⟩
      obtain ⟨ra, hra⟩ := trFlatMap_all_ok hrun j hj
      have hra2 := hra
      rw [if_pos hin] at hra2
      rw [except_map_eq_ok] at hra2
      obtain ⟨a, ha, hfa⟩ := hra2
      have hPv : onesRow j ∈ a.2.1 :=
        soc_frame_visits_self children n k b h1 h2' f (onesRow j) false
          (inTest equal n k) a ha
      have hPva : onesRow j ∈ ra.2.1 := by
        rw [← hfa]
        exact hPv
      exact (trFlatMap_sub hj hrun hra).2.1 _ hPva
  · intro M hM hM1
    obtain ⟨j', -, heq, -⟩ := visit_char M hM hM1
    exact ⟨j', heq⟩

/-- Witness for C7 with the empty classifier at `n = 2`, `k = 1`, `b = 2`:
the only visited node is the seed `[[1,1]]` for `j = 2`. -/
theorem C7_seeds_witness :
    (∀ j : Int, onesRow j ∈ ([onesRow 2] : List Mat) ↔
      0 < j ∧ (2 : Int) ∣ j ∧ j ≤ 2 ∧ inTest false 2 1 (onesRow j) = true) ∧
    (∀ M ∈ ([onesRow 2] : List Mat), nrows M = 1 →
      ∃ j : Int, M = onesRow j) :=
  C7_seeds (fun _ _ _ => []) 2 1 2 2 false (fun _ => true)
    [onesRow 2] [onesRow 2] [] (by decide) (by decide) (by decide)
    (by decide) (fun P t C hC => absurd hC (List.not_mem_nil C)) (by decide)

theorem soc_frame_calls_visited (children : Mat → Int → Int → List Mat)
    (n k b : Int) (h1 : invalidB b = false) (h2 : degenerate n k = false) :
    ∀ (fuel : Nat) (P : Mat) (e : Bool) (p : Mat → Bool) (r : SocRes),
    self_orthogonal_binary_codes children n k b fuel (some P) e p = .ok r →
    ∀ c ∈ r.2.2, c.parent ∈ r.2.1 := by
  intro fuel
  induction fuel with
  | zero =>
    intro P e p r h
    rw [soc_zero, if_neg (by simp [h1]), if_neg (by simp [h2])] at h
    exact Except.noConfusion h
  | succ f ih =>
    intro P e p r h
    by_cases hk : k = (nrows P : Int)
    · rw [soc_some_stop children n k b f P e p h1 h2 hk] at h
      have hr : r = (if outTest e n k P then [P] else [], [P], []) :=
        (Except.ok.inj h).symm
      subst hr
      intro c hc
      simp at hc
    · rw [soc_some_go children n k b f P e p h1 h2 hk] at h
      rw [except_map_eq_ok] at h
      obtain ⟨a, ha, hfa⟩ := h
      subst hfa
      intro c hc
      obtain ⟨nn, hnn, ra, hra, hca⟩ := trFlatMap_mem_calls ha hc
      by_cases hin : inTest e n k P = true
      · rw [if_pos hin] at hra
        rw [except_map_eq_ok] at hra
        obtain ⟨a2, ha2, hfa2⟩ := hra
        subst hfa2
        rcases List.mem_cons.mp hca with rfl | hca2
        · exact List.mem_cons_self _ _
        · obtain ⟨child, hchild, ra3, hra3, hca3⟩ :=
            trFlatMap_mem_calls ha2 hca2
          rw [except_map_eq_ok] at hra3
          obtain ⟨a3, ha3, hfa3⟩ := hra3
          subst hfa3
          have hpv3 : c.parent ∈ a3.2.1 :=
            ih child false (inTest e n k) a3 ha3 c hca3
          have hra3' : (self_orthogonal_binary_codes children n k b f
              (some child) false (inTest e n k)).map
              (fun r => (r.1.filter (outTest e n k), r.2.1, r.2.2)) =
              .ok (a3.1.filter (outTest e n k), a3.2.1, a3.2.2) := by
            rw [ha3]; rfl
          have hpv2 : c.parent ∈ a2.2.1 :=
            (trFlatMap_sub hchild ha2 hra3').2.1 _ hpv3
          have hra' : (if inTest e n k P = true then
              (trFlatMap (children P nn b) (fun child =>
                (self_orthogonal_binary_codes children n k b f (some child)
                  false (inTest e n k)).map
                  (fun r => (r.1.filter (outTest e n k), r.2.1, r.2.2)))).map
                (fun r => (r.1, r.2.1, ChildCall.mk P nn b :: r.2.2))
            else .ok ([], [], [])) =
              .ok (a2.1, a2.2.1, ChildCall.mk P nn b :: a2.2.2) := by
            rw [if_pos hin, ha2]; rfl
          have hpv1 : c.parent ∈ a.2.1 :=
            (trFlatMap_sub hnn ha hra').2.1 _ hpv2
          exact List.mem_cons_of_mem _ hpv1
      · rw [if_neg hin] at hra
        have hra' : ra = ([], [], []) := (Except.ok.inj hra).symm
        rw [hra'] at hca
        simp at hca

theorem soc_one_row_visit (children : Mat → Int → Int → List Mat)
    (n k b : Int) (fuel : Nat) (equal : Bool) (p : Mat → Bool)
    (ys vs : List Mat) (cs : List ChildCall)
    (h1 : invalidB b = false) (h2 : degenerate n k = false)
    (Hrows : ∀ P t, ∀ C ∈ children P t b, nrows C = nrows P + 1)
    (hrun : self_orthogonal_binary_codes children n k b fuel none equal p =
      .ok (ys, vs, cs)) :
    ∀ M ∈ vs, nrows M = 1 →
      ∃ j : Int, j ∈ seedRange b n ∧ M = onesRow j ∧
        inTest equal n k M = true := by
  obtain ⟨-, -, hfuel⟩ := soc_ok_shape hrun
  obtain ⟨f, rfl⟩ := hfuel h2
  rw [soc_none children n k b f equal p h1 h2] at hrun
  intro M hM hM1
  obtain ⟨j', hj', ra, hra, hMa⟩ := trFlatMap_mem_visits hrun hM
  by_cases hin : inTest equal n k (onesRow j') = true
  · rw [if_pos hin] at hra
    rw [except_map_eq_ok] at hra
    obtain ⟨a, ha, hfa⟩ := hra
    subst hfa
    rcases soc_frame_visits_shape children n k b Hrows h1 h2 f
      (onesRow j') false (inTest equal n k) a ha M hMa with rfl | hlt
    · exact ⟨j', hj', rfl, hin⟩
    · rw [nrows_onesRow] at hlt
      omega
  · rw [if_neg hin] at hra
    have hra' : ra = ([], [], []) := (Except.ok.inj hra).symm
    rw [hra'] at hMa
    simp at hMa

/-- Counterexample to C3: in the run `enumerate(n = 5, k = 4, b = 2,
equal = true)` with the concrete classifier `cexChildren`, the node
`cexM2` (2 rows, 4 columns, so `cols - rows = 2 > n - k = 1`) *is*
expanded into children — the classifier is invoked on it at target 5 —
because the recursive call rebuilt the filter pair with the default
`equal = False`, making the recursion-level `in_test` constantly true
instead of the room bound the claim asserts. -/
theorem C3_counterexample :
    self_orthogonal_binary_codes cexChildren 5 4 2 5 none true
      (fun _ => true) =
      .ok ([], [onesRow 2, cexM2],
        [ChildCall.mk (onesRow 2) 3 2, ChildCall.mk (onesRow 2) 4 2,
          ChildCall.mk cexM2 5 2, ChildCall.mk (onesRow 2) 5 2]) ∧
    ChildCall.mk cexM2 5 2 ∈
      [ChildCall.mk (onesRow 2) 3 2, ChildCall.mk (onesRow 2) 4 2,
        ChildCall.mk cexM2 5 2, ChildCall.mk (onesRow 2) 5 2] ∧
    inTest true 5 4 cexM2 = false :=
  ⟨by decide, by decide, by decide⟩

/-- C3 as amended: with `equal = true` the room-bound `in_test` is applied
only when seeding — every classifier invocation whose parent is a one-row
node (a seed) has a parent satisfying the room bound — while recursive
calls rebuild the filter pair with the default `equal = False`, so deeper
nodes are expanded without the room-bound check (see the
counterexample). -/
theorem C3_amended_seed_filter (children : Mat → Int → Int → List Mat)
    (n k b : Int) (fuel : Nat) (p : Mat → Bool)
    (ys vs : List Mat) (cs : List ChildCall)
    (Hrows : ∀ P t, ∀ C ∈ children P t b, nrows C = nrows P + 1)
    (hrun : self_orthogonal_binary_codes children n k b fuel none true p =
      .ok (ys, vs, cs)) :
    ∀ c ∈ cs, nrows c.parent = 1 → inTest true n k c.parent = true := by
  intro c hc hc1
  obtain ⟨h1, hdeg, hfuel⟩ := soc_ok_shape hrun
  by_cases h2 : degenerate n k
  · have hempty := hdeg h2
    have : cs = [] := by
      simpa using congrArg (fun r : SocRes => r.2.2) hempty
    subst this
    simp at hc
  · have h2' : degenerate n k = false := by simpa using h2
    have hparent : c.parent ∈ vs := by
      obtain ⟨f, rfl⟩ := hfuel h2'
      rw [soc_none children n k b f true p h1 h2'] at hrun
      obtain ⟨j', hj', ra, hra, hca⟩ := trFlatMap_mem_calls hrun hc
      by_cases hin : inTest true n k (onesRow j') = true
      · rw [if_pos hin] at hra
        rw [except_map_eq_ok] at hra
        obtain ⟨a, ha, hfa⟩ := hra
        subst hfa
        have hpv : c.parent ∈ a.2.1 :=
          soc_frame_calls_visited children n k b h1 h2' f (onesRow j') false
            (inTest true n k) a ha c hca
        have hra' : (if inTest true n k (onesRow j') = true then
            (self_orthogonal_binary_codes children n k b f (some (onesRow j'))
              false (inTest true n k)).map
              (fun r => (r.1.filter (outTest true n k), r.2.1, r.2.2))
          else .ok ([], [], [])) =
            .ok (a.1.filter (outTest true n k), a.2.1, a.2.2) := by
          rw [if_pos hin, ha]; rfl
        exact (trFlatMap_sub hj' hrun hra').2.1 _ hpv
      · rw [if_neg hin] at hra
        have hra' : ra = ([], [], []) := (Except.ok.inj hra).symm
        rw [hra'] at hca
        simp at hca
    obtain ⟨j, hj, heq, hin⟩ := soc_one_row_visit children n k b fuel true p
      ys vs cs h1 h2' Hrows hrun c.parent hparent hc1
    exact hin

/-- Witness for the amended C3 on the counterexample run: the three
invocations with the one-row parent `[[1,1]]` all satisfy the room bound
(`2 - 1 ≤ 5 - 4`); the invocation with parent `cexM2` has two rows, so the
seed-level guarantee does not constrain it. -/
theorem C3_amended_seed_filter_witness :
    inTest true 5 4 (ChildCall.mk (onesRow 2) 3 2).parent = true :=
  C3_amended_seed_filter cexChildren 5 4 2 5 (fun _ => true)
    [] [onesRow 2, cexM2]
    [ChildCall.mk (onesRow 2) 3 2, ChildCall.mk (onesRow 2) 4 2,
      ChildCall.mk cexM2 5 2, ChildCall.mk (onesRow 2) 5 2]
    (fun P t C hC => by
      unfold cexChildren at hC
      by_cases hx : P = onesRow 2 ∧ t = 4
      · rw [if_pos hx] at hC
        have hC' : C = cexM2 := by simpa using hC
        subst hC'
        rw [hx.1]
        decide
      · rw [if_neg hx] at hC
        simp at hC)
    (by decide)
    (ChildCall.mk (onesRow 2) 3 2) (List.mem_cons_self _ _) (by decide)

theorem soc_frame_yields_self (children : Mat → Int → Int → List Mat)
    (n k b : Int) (h1 : invalidB b = false) (h2 : degenerate n k = false)
    (fuel : Nat) (P : Mat) (p : Mat → Bool) (r : SocRes)
    (h : self_orthogonal_binary_codes children n k b fuel (some P) false p =
      .ok r) : P ∈ r.1 := by
  cases fuel with
  | zero =>
    rw [soc_zero, if_neg (by simp [h1]), if_neg (by simp [h2])] at h
    exact Except.noConfusion h
  | succ f =>
    by_cases hk : k = (nrows P : Int)
    · rw [soc_some_stop children n k b f P false p h1 h2 hk] at h
      have hr : r = (if outTest false n k P then [P] else [], [P], []) :=
        (Except.ok.inj h).symm
      subst hr
      rw [if_pos (outTest_false_eq n k P)]
      simp
    · rw [soc_some_go children n k b f P false p h1 h2 hk] at h
      rw [except_map_eq_ok] at h
      obtain ⟨a, ha, hfa⟩ := h
      subst hfa
      apply List.mem_append.mpr
      left
      rw [if_pos (outTest_false_eq n k P)]
      simp

theorem soc_frame_yields_in_visits (children : Mat → Int → Int → List Mat)
    (n k b : Int) (h1 : invalidB b = false) (h2 : degenerate n k = false) :
    ∀ (fuel : Nat) (P : Mat) (e : Bool) (p : Mat → Bool) (r : SocRes),
    self_orthogonal_binary_codes children n k b fuel (some P) e p = .ok r →
    ∀ M ∈ r.1, M ∈ r.2.1 := by
  intro fuel
  induction fuel with
  | zero =>
    intro P e p r h
    rw [soc_zero, if_neg (by simp [h1]), if_neg (by simp [h2])] at h
    exact Except.noConfusion h
  | succ f ih =>
    intro P e p r h
    by_cases hk : k = (nrows P : Int)
    · rw [soc_some_stop children n k b f P e p h1 h2 hk] at h
      have hr : r = (if outTest e n k P then [P] else [], [P], []) :=
        (Except.ok.inj h).symm
      subst hr
      intro M hM
      have hMP : M = P := by
        by_cases ho : outTest e n k P = true
        · rw [if_pos ho] at hM; simpa using hM
        · rw [if_neg ho] at hM; simp at hM
      simp [hMP]
    · rw [soc_some_go children n k b f P e p h1 h2 hk] at h
      rw [except_map_eq_ok] at h
      obtain ⟨a, ha, hfa⟩ := h
      subst hfa
      intro M hM
      rcases List.mem_append.mp hM with hM1 | hM2
      · have hMP : M = P := by
          by_cases ho : outTest e n k P = true
          · rw [if_pos ho] at hM1; simpa using hM1
          · rw [if_neg ho] at hM1; simp at hM1
        simp [hMP]
      · obtain ⟨nn, hnn, ra, hra, hMa⟩ := trFlatMap_mem_yields ha hM2
        by_cases hin : inTest e n k P = true
        · rw [if_pos hin] at hra
          rw [except_map_eq_ok] at hra
          obtain ⟨a2, ha2, hfa2⟩ := hra
          subst hfa2
          obtain ⟨child, hchild, ra3, hra3, hMa3⟩ :=
            trFlatMap_mem_yields ha2 hMa
          rw [except_map_eq_ok] at hra3
          obtain ⟨a3, ha3, hfa3⟩ := hra3
          subst hfa3
          have hMa3' : M ∈ a3.1 := (List.mem_filter.mp hMa3).1
          have hMv3 : M ∈ a3.2.1 :=
            ih child false (inTest e n k) a3 ha3 M hMa3'
          have hra3' : (self_orthogonal_binary_codes children n k b f
              (some child) false (inTest e n k)).map
              (fun r => (r.1.filter (outTest e n k), r.2.1, r.2.2)) =
              .ok (a3.1.filter (outTest e n k), a3.2.1, a3.2.2) := by
            rw [ha3]; rfl
          have hMv2 : M ∈ a2.2.1 :=
            (trFlatMap_sub hchild ha2 hra3').2.1 _ hMv3
          have hra' : (if inTest e n k P = true then
              (trFlatMap (children P nn b) (fun child =>
                (self_orthogonal_binary_codes children n k b f (some child)
                  false (inTest e n k)).map
                  (fun r => (r.1.filter (outTest e n k), r.2.1, r.2.2)))).map
                (fun r => (r.1, r.2.1, ChildCall.mk P nn b :: r.2.2))
            else .ok ([], [], [])) =
              .ok (a2.1, a2.2.1, ChildCall.mk P nn b :: a2.2.2) := by
            rw [if_pos hin, ha2]; rfl
          have hMv1 : M ∈ a.2.1 := (trFlatMap_sub hnn ha hra').2.1 _ hMv2
          exact List.mem_cons_of_mem _ hMv1
        · rw [if_neg hin] at hra
          have hra' : ra = ([], [], []) := (Except.ok.inj hra).symm
          rw [hra'] at hMa
          simp at hMa

/-- Counterexample to C2: in the run `enumerate(n = 3, k = 1, b = 2,
equal = false)` the classifier is never invoked (the calls trace is
empty, so the canonicalization contract is immaterial), and the only
yielded code is the seed `[[1,1]]`; yet `cexTarget = [[1,1,0]]` generates
a self-orthogonal code with row weights divisible by 2, dimension
`1 ∈ [1, k]` and length `3 ∈ [1, n]`, and no yielded code is
permutation-equivalent to it.  The "at least one representative of every
class" half of C2 therefore fails on the code. -/
theorem C2_counterexample :
    self_orthogonal_binary_codes (fun _ _ _ => []) 3 1 2 2 none false
      (fun _ => true) = .ok ([onesRow 2], [onesRow 2], []) ∧
    selfOrth cexTarget ∧ rowsDivisible 2 cexTarget ∧
    nrows cexTarget = 1 ∧ (ncols cexTarget : Int) ≤ 3 ∧
    ¬ permEquivalent (onesRow 2) cexTarget ∧
    ¬ permEquivalent cexTarget (onesRow 2) := by
  refine ⟨by decide, by decide, by decide, by decide, by decide, ?_, ?_⟩
  · intro hpe
    exact absurd hpe.1 (by decide)
  · intro hpe
    exact absurd hpe.1 (by decide)

theorem permEquivalent_nrows (M N : Mat) (h : permEquivalent M N) :
    nrows M = nrows N := by
  obtain ⟨-, σ, rfl⟩ := h
  simp [nrows]

theorem ofFn_perm_replicate (c : Nat) (σ : Equiv.Perm (Fin c)) :
    List.ofFn (fun i : Fin c =>
      (List.replicate c true).getD ((σ i) : Nat) false) =
    List.replicate c true := by
  rw [← List.ofFn_const c true]
  congr 1
  funext i
  rw [List.getD_eq_getElem _ _ (by simpa using (σ i).isLt)]
  simp

theorem permEquivalent_onesRow (j : Int) (N : Mat)
    (h : permEquivalent (onesRow j) N) : N = onesRow j := by
  obtain ⟨-, σ, hN⟩ := h
  subst hN
  revert σ
  rw [ncols_onesRow]
  intro σ
  show List.map _ [List.replicate j.toNat true] = onesRow j
  rw [List.map_singleton, ofFn_perm_replicate j.toNat σ]
  rfl

theorem reaches_nrows_le (children : Mat → Int → Int → List Mat) (b : Int)
    (Hrows : ∀ P t, ∀ C ∈ children P t b, nrows C = nrows P + 1)
    (P M : Mat) (h : Reaches children b P M) : nrows P ≤ nrows M := by
  induction h with
  | refl P => exact le_refl _
  | step P C M t hC h ih =>
    have := Hrows P t C hC
    omega

theorem reaches_unique (children : Mat → Int → Int → List Mat) (b : Int)
    (Hrows : ∀ P t, ∀ C ∈ children P t b, nrows C = nrows P + 1)
    (Hparent : ∀ P t P' t' C, C ∈ children P t b → C ∈ children P' t' b →
      P = P' ∧ t = t')
    (P M : Mat) (h : Reaches children b P M) :
    ∀ P', Reaches children b P' M → nrows P' = nrows P → P' = P := by
  induction h with
  | refl P =>
    intro P' h' hn
    cases h' with
    | refl => rfl
    | step P' C' M t' hC' h2 =>
      exfalso
      have h3 := reaches_nrows_le children b Hrows C' _ h2
      have := Hrows P' t' C' hC'
      omega
  | step P C M t hC h ih =>
    intro P' h' hn
    cases h' with
    | refl =>
      exfalso
      have h3 := reaches_nrows_le children b Hrows C _ h
      have := Hrows P t C hC
      omega
    | step P' C' M t' hC' h2 =>
      have hC'eq : C' = C := by
        apply ih C' h2
        have := Hrows P t C hC
        have := Hrows P' t' C' hC'
        omega
      subst hC'eq
      exact (Hparent P' t' P t C' hC' hC).1

theorem reaches_split (children : Mat → Int → Int → List Mat) (b : Int)
    (P M : Mat) (h : Reaches children b P M) :
    M = P ∨ ∃ Q t, M ∈ children Q t b ∧ Reaches children b P Q := by
  induction h with
  | refl P => exact Or.inl rfl
  | step P C M t hC h ih =>
    rcases ih with rfl | ⟨Q, t', hQ, hPQ⟩
    · exact Or.inr ⟨P, t, hC, Reaches.refl P⟩
    · exact Or.inr ⟨Q, t', hQ, Reaches.step P C Q t hC hPQ⟩

theorem seedRange_nodup (d n : Int) (hd : 0 < d) : (seedRange d n).Nodup := by
  unfold seedRange
  refine List.Nodup.map ?_ (List.nodup_range _)
  intro i i' hii
  have hd0 : d ≠ 0 := by omega
  have := mul_left_cancel₀ hd0 hii
  omega

theorem colRange_nodup (c n : Int) : (colRange c n).Nodup := by
  unfold colRange
  refine List.Nodup.map ?_ (List.nodup_range _)
  intro i i' hii
  have h2 : c + 1 + (i : Int) = c + 1 + (i' : Int) := hii
  omega

theorem trFlatMap_yields_nodup {α : Type} {l : List α}
    {f : α → Except String SocRes} {r : SocRes}
    (h : trFlatMap l f = .ok r)
    (hn : ∀ a ∈ l, ∀ ra, f a = .ok ra → ra.1.Nodup)
    (hd : l.Pairwise (fun a a' => ∀ ra ra', f a = .ok ra → f a' = .ok ra' →
      ∀ M ∈ ra.1, M ∉ ra'.1)) :
    r.1.Nodup := by
  induction l generalizing r with
  | nil =>
    rw [trFlatMap] at h
    obtain rfl : r = ([], [], []) := by simpa using h.symm
    exact List.nodup_nil
  | cons a t ih =>
    obtain ⟨r₁, r₂, hfa, hft, rfl⟩ := trFlatMap_cons_ok h
    obtain ⟨hda, hdt⟩ := List.pairwise_cons.mp hd
    refine List.nodup_append.mpr ⟨hn a (List.mem_cons_self a t) r₁ hfa, ?_, ?_⟩
    · exact ih hft (fun x hx => hn x (List.mem_cons_of_mem a hx)) hdt
    · intro M hM1 hM2
      obtain ⟨a', ha't, ra', hra', hMa'⟩ := trFlatMap_mem_yields hft hM2
      exact hda a' ha't r₁ ra' hfa hra' M hM1 hMa'

theorem soc_frame_yields_reach (children : Mat → Int → Int → List Mat)
    (n k b : Int) (h1 : invalidB b = false) (h2 : degenerate n k = false) :
    ∀ (fuel : Nat) (P : Mat) (e : Bool) (p : Mat → Bool) (r : SocRes),
    self_orthogonal_binary_codes children n k b fuel (some P) e p = .ok r →
    ∀ M ∈ r.1, Reaches children b P M := by
  intro fuel
  induction fuel with
  | zero =>
    intro P e p r h
    rw [soc_zero, if_neg (by simp [h1]), if_neg (by simp [h2])] at h
    exact Except.noConfusion h
  | succ f ih =>
    intro P e p r h
    by_cases hk : k = (nrows P : Int)
    · rw [soc_some_stop children n k b f P e p h1 h2 hk] at h
      have hr : r = (if outTest e n k P then [P] else [], [P], []) :=
        (Except.ok.inj h).symm
      subst hr
      intro M hM
      have hMP : M = P := by
        by_cases ho : outTest e n k P = true
        · rw [if_pos ho] at hM; simpa using hM
        · rw [if_neg ho] at hM; simp at hM
      rw [hMP]
      exact Reaches.refl P
    · rw [soc_some_go children n k b f P e p h1 h2 hk] at h
      rw [except_map_eq_ok] at h
      obtain ⟨a, ha, hfa⟩ := h
      subst hfa
      intro M hM
      rcases List.mem_append.mp hM with hM1 | hM2
      · have hMP : M = P := by
          by_cases ho : outTest e n k P = true
          · rw [if_pos ho] at hM1; simpa using hM1
          · rw [if_neg ho] at hM1; simp at hM1
        rw [hMP]
        exact Reaches.refl P
      · obtain ⟨nn, hnn, ra, hra, hMa⟩ := trFlatMap_mem_yields ha hM2
        by_cases hin : inTest e n k P = true
        · rw [if_pos hin] at hra
          rw [except_map_eq_ok] at hra
          obtain ⟨a2, ha2, hfa2⟩ := hra
          subst hfa2
          obtain ⟨child, hchild, ra3, hra3, hMa3⟩ :=
            trFlatMap_mem_yields ha2 hMa
          rw [except_map_eq_ok] at hra3
          obtain ⟨a3, ha3, hfa3⟩ := hra3
          subst hfa3
          have hMa3' : M ∈ a3.1 := (List.mem_filter.mp hMa3).1
          exact Reaches.step P child M nn hchild
            (ih child false (inTest e n k) a3 ha3 M hMa3')
        · rw [if_neg hin] at hra
          have hra' : ra = ([], [], []) := (Except.ok.inj hra).symm
          rw [hra'] at hMa
          simp at hMa

theorem soc_child_branch_reach (children : Mat → Int → Int → List Mat)
    (n k b : Int) (h1 : invalidB b = false) (h2 : degenerate n k = false)
    (fuel : Nat) (C : Mat) (q out : Mat → Bool) (ra : SocRes)
    (hra : (self_orthogonal_binary_codes children n k b fuel (some C) false
      q).map (fun r => (r.1.filter out, r.2.1, r.2.2)) = .ok ra) :
    ∀ M ∈ ra.1, Reaches children b C M := by
  rw [except_map_eq_ok] at hra
  obtain ⟨a3, ha3, hfa3⟩ := hra
  subst hfa3
  intro M hM
  exact soc_frame_yields_reach children n k b h1 h2 fuel C false q a3 ha3 M
    ((List.mem_filter.mp hM).1)

theorem soc_nn_branch_reach (children : Mat → Int → Int → List Mat)
    (n k b : Int) (h1 : invalidB b = false) (h2 : degenerate n k = false)
    (fuel : Nat) (P : Mat) (e : Bool) (nn : Int) (ra : SocRes)
    (hra : (if inTest e n k P = true then
        (trFlatMap (children P nn b) (fun child =>
          (self_orthogonal_binary_codes children n k b fuel (some child)
            false (inTest e n k)).map
            (fun r => (r.1.filter (outTest e n k), r.2.1, r.2.2)))).map
          (fun r => (r.1, r.2.1, ChildCall.mk P nn b :: r.2.2))
      else .ok ([], [], [])) = .ok ra) :
    ∀ M ∈ ra.1, ∃ C ∈ children P nn b, Reaches children b C M := by
  intro M hM
  by_cases hin : inTest e n k P = true
  · rw [if_pos hin] at hra
    rw [except_map_eq_ok] at hra
    obtain ⟨a2, ha2, hfa2⟩ := hra
    subst hfa2
    obtain ⟨C, hC, ra3, hra3, hMa3⟩ := trFlatMap_mem_yields ha2 hM
    exact ⟨C, hC, soc_child_branch_reach children n k b h1 h2 fuel C
      (inTest e n k) (outTest e n k) ra3 hra3 M hMa3⟩
  · rw [if_neg hin] at hra
    have hra' : ra = ([], [], []) := (Except.ok.inj hra).symm
    rw [hra'] at hM
    simp at hM

theorem soc_frame_yields_nodup (children : Mat → Int → Int → List Mat)
    (n k b : Int)
    (Hrows : ∀ P t, ∀ C ∈ children P t b, nrows C = nrows P + 1)
    (Hparent : ∀ P t P' t' C, C ∈ children P t b → C ∈ children P' t' b →
      P = P' ∧ t = t')
    (Hnodup : ∀ P t, (children P t b).Nodup)
    (h1 : invalidB b = false) (h2 : degenerate n k = false) :
    ∀ (fuel : Nat) (P : Mat) (e : Bool) (p : Mat → Bool) (r : SocRes),
    self_orthogonal_binary_codes children n k b fuel (some P) e p = .ok r →
    r.1.Nodup := by
  intro fuel
  induction fuel with
  | zero =>
    intro P e p r h
    rw [soc_zero, if_neg (by simp [h1]), if_neg (by simp [h2])] at h
    exact Except.noConfusion h
  | succ f ih =>
    intro P e p r h
    by_cases hk : k = (nrows P : Int)
    · rw [soc_some_stop children n k b f P e p h1 h2 hk] at h
      have hr : r = (if outTest e n k P then [P] else [], [P], []) :=
        (Except.ok.inj h).symm
      subst hr
      show (if outTest e n k P = true then [P] else []).Nodup
      by_cases ho : outTest e n k P = true
      · rw [if_pos ho]; exact List.nodup_singleton P
      · rw [if_neg ho]; exact List.nodup_nil
    · rw [soc_some_go children n k b f P e p h1 h2 hk] at h
      rw [except_map_eq_ok] at h
      obtain ⟨a, ha, hfa⟩ := h
      subst hfa
      have hanodup : a.1.Nodup := by
        apply trFlatMap_yields_nodup ha
        · intro nn hnn ra hra
          by_cases hin : inTest e n k P = true
          · rw [if_pos hin] at hra
            rw [except_map_eq_ok] at hra
            obtain ⟨a2, ha2, hfa2⟩ := hra
            subst hfa2
            show a2.1.Nodup
            apply trFlatMap_yields_nodup ha2
            · intro C hC ra3 hra3
              rw [except_map_eq_ok] at hra3
              obtain ⟨a3, ha3, hfa3⟩ := hra3
              subst hfa3
              show (a3.1.filter (outTest e n k)).Nodup
              exact List.Nodup.filter _ (ih C false (inTest e n k) a3 ha3)
            · refine (Hnodup P nn).imp_of_mem ?_
              intro C C' hCmem hC'mem hne ra3 ra3' hra3 hra3' M hM1 hM2
              have hr1 := soc_child_branch_reach children n k b h1 h2 f C
                (inTest e n k) (outTest e n k) ra3 hra3 M hM1
              have hr2 := soc_child_branch_reach children n k b h1 h2 f C'
                (inTest e n k) (outTest e n k) ra3' hra3' M hM2
              have hCC : C' = C := by
                apply reaches_unique children b Hrows Hparent C M hr1 C' hr2
                have := Hrows P nn C hCmem
                have := Hrows P nn C' hC'mem
                omega
              exact hne hCC.symm
          · rw [if_neg hin] at hra
            have hra' : ra = ([], [], []) := (Except.ok.inj hra).symm
            rw [hra']
            exact List.nodup_nil
        · refine (colRange_nodup (ncols P : Int) n).imp_of_mem ?_
          intro nn nn' hnnmem hnn'mem hne ra ra' hra hra' M hM1 hM2
          obtain ⟨C, hC, hRC⟩ := soc_nn_branch_reach children n k b h1 h2 f
            P e nn ra hra M hM1
          obtain ⟨C', hC', hRC'⟩ := soc_nn_branch_reach children n k b h1 h2
            f P e nn' ra' hra' M hM2
          have hCC : C' = C := by
            apply reaches_unique children b Hrows Hparent C M hRC C' hRC'
            have := Hrows P nn C hC
            have := Hrows P nn' C' hC'
            omega
          subst hCC
          obtain ⟨-, ht⟩ := Hparent P nn P nn' C' hC hC'
          exact hne ht
      show ((if outTest e n k P = true then [P] else []) ++ a.1).Nodup
      refine List.nodup_append.mpr ⟨?_, hanodup, ?_⟩
      · by_cases ho : outTest e n k P = true
        · rw [if_pos ho]; exact List.nodup_singleton P
        · rw [if_neg ho]; exact List.nodup_nil
      · intro M hM1 hM2
        have hMP : M = P := by
          by_cases ho : outTest e n k P = true
          · rw [if_pos ho] at hM1; simpa using hM1
          · rw [if_neg ho] at hM1; simp at hM1
        obtain ⟨nn, hnn, ra, hra, hMa⟩ := trFlatMap_mem_yields ha hM2
        obtain ⟨C, hC, hRC⟩ := soc_nn_branch_reach children n k b h1 h2 f
          P e nn ra hra M hMa
        have h3 := reaches_nrows_le children b Hrows C M hRC
        have h4 := Hrows P nn C hC
        rw [hMP] at h3
        omega

theorem soc_top_yields_nodup (children : Mat → Int → Int → List Mat)
    (n k b : Int) (fuel : Nat) (equal : Bool) (p : Mat → Bool)
    (ys vs : List Mat) (cs : List ChildCall)
    (hb1 : 0 < b)
    (Hrows : ∀ P t, ∀ C ∈ children P t b, nrows C = nrows P + 1)
    (Hparent : ∀ P t P' t' C, C ∈ children P t b → C ∈ children P' t' b →
      P = P' ∧ t = t')
    (Hnodup : ∀ P t, (children P t b).Nodup)
    (h1 : invalidB b = false) (h2 : degenerate n k = false)
    (hrun : self_orthogonal_binary_codes children n k b fuel none equal p =
      .ok (ys, vs, cs)) : ys.Nodup := by
  obtain ⟨-, -, hfuel⟩ := soc_ok_shape hrun
  obtain ⟨f, rfl⟩ := hfuel h2
  rw [soc_none children n k b f equal p h1 h2] at hrun
  show ((ys, vs, cs) : SocRes).1.Nodup
  apply trFlatMap_yields_nodup hrun
  · intro j hj ra hra
    by_cases hin : inTest equal n k (onesRow j) = true
    · rw [if_pos hin] at hra
      rw [except_map_eq_ok] at hra
      obtain ⟨a, ha, hfa⟩ := hra
      subst hfa
      show (a.1.filter (outTest equal n k)).Nodup
      exact List.Nodup.filter _
        (soc_frame_yields_nodup children n k b Hrows Hparent Hnodup h1 h2 f
          (onesRow j) false (inTest equal n k) a ha)
    · rw [if_neg hin] at hra
      have hra' : ra = ([], [], []) := (Except.ok.inj hra).symm
      rw [hra']
      exact List.nodup_nil
  · refine (seedRange_nodup b n hb1).imp_of_mem ?_
    intro j j' hjmem hj'mem hne ra ra' hra hra' M hM1 hM2
    have hr1 : Reaches children b (onesRow j) M := by
      by_cases hin : inTest equal n k (onesRow j) = true
      · rw [if_pos hin] at hra
        exact soc_child_branch_reach children n k b h1 h2 f (onesRow j)
          (inTest equal n k) (outTest equal n k) ra hra M hM1
      · rw [if_neg hin] at hra
        have hra2 : ra = ([], [], []) := (Except.ok.inj hra).symm
        rw [hra2] at hM1
        simp at hM1
    have hr2 : Reaches children b (onesRow j') M := by
      by_cases hin : inTest equal n k (onesRow j') = true
      · rw [if_pos hin] at hra'
        exact soc_child_branch_reach children n k b h1 h2 f (onesRow j')
          (inTest equal n k) (outTest equal n k) ra' hra' M hM2
      · rw [if_neg hin] at hra'
        have hra2 : ra' = ([], [], []) := (Except.ok.inj hra').symm
        rw [hra2] at hM2
        simp at hM2
    have heq : onesRow j' = onesRow j := by
      apply reaches_unique children b Hrows Hparent (onesRow j) M hr1
        (onesRow j') hr2
      rw [nrows_onesRow, nrows_onesRow]
    obtain ⟨hj1, -, -⟩ := (mem_seedRange hb1).mp hjmem
    obtain ⟨hj1', -, -⟩ := (mem_seedRange hb1).mp hj'mem
    have htn : j'.toNat = j.toNat := by
      have := congrArg ncols heq
      simpa [ncols_onesRow] using this
    exact hne (by omega)

theorem soc_top_yield_source (children : Mat → Int → Int → List Mat)
    (n k b : Int) (fuel : Nat) (equal : Bool) (p : Mat → Bool)
    (ys vs : List Mat) (cs : List ChildCall)
    (Hrows : ∀ P t, ∀ C ∈ children P t b, nrows C = nrows P + 1)
    (h1 : invalidB b = false) (h2 : degenerate n k = false)
    (hrun : self_orthogonal_binary_codes children n k b fuel none equal p =
      .ok (ys, vs, cs)) :
    ∀ M ∈ ys, (∃ j, j ∈ seedRange b n ∧ M = onesRow j) ∨
      (∃ Q t, M ∈ children Q t b ∧ 1 ≤ nrows Q) := by
  obtain ⟨-, -, hfuel⟩ := soc_ok_shape hrun
  obtain ⟨f, rfl⟩ := hfuel h2
  rw [soc_none children n k b f equal p h1 h2] at hrun
  intro M hM
  obtain ⟨j, hj, ra, hra, hMa⟩ := trFlatMap_mem_yields hrun hM
  by_cases hin : inTest equal n k (onesRow j) = true
  · rw [if_pos hin] at hra
    have hr := soc_child_branch_reach children n k b h1 h2 f (onesRow j)
      (inTest equal n k) (outTest equal n k) ra hra M hMa
    rcases reaches_split children b (onesRow j) M hr with rfl | ⟨Q, t, hQ, hRQ⟩
    · exact Or.inl ⟨j, hj, rfl⟩
    · refine Or.inr ⟨Q, t, hQ, ?_⟩
      have := reaches_nrows_le children b Hrows (onesRow j) Q hRQ
      rw [nrows_onesRow] at this
      exact this
  · rw [if_neg hin] at hra
    have hra' : ra = ([], [], []) := (Except.ok.inj hra).symm
    rw [hra'] at hMa
    simp at hMa

/-- C2 as amended.  The no-duplicates half of the claim is retained and
proven under the formalized canonicalization contract — the classifier
adds exactly one row per child, returns duplicate-free sets, each returned
matrix arises from a unique (parent, target) pair, and is globally
canonical (two returned matrices that are permutation-equivalent are
identical): no two yielded codes of a single run are
permutation-equivalent.  The completeness half is corrected to what the
code does at dimension one (see the counterexample): the one-dimensional
codes yielded are exactly the all-ones seeds — `onesRow j` is yielded for
every positive multiple `j` of `b` with `j ≤ n`, and every yielded
one-row code is such a seed, so one-dimensional classes whose generator
has a zero coordinate receive no representative. -/
theorem C2_amended_exactly_once (children : Mat → Int → Int → List Mat)
    (n k b : Int) (fuel : Nat) (p : Mat → Bool)
    (ys vs : List Mat) (cs : List ChildCall)
    (hb1 : 0 < b) (hb2 : b % 2 = 0) (hk : 1 ≤ k) (hn : 2 ≤ n)
    (Hrows : ∀ P t, ∀ C ∈ children P t b, nrows C = nrows P + 1)
    (Hnodup : ∀ P t, (children P t b).Nodup)
    (Hparent : ∀ P t P' t' C, C ∈ children P t b → C ∈ children P' t' b →
      P = P' ∧ t = t')
    (Hcanon : ∀ P t P' t' C C', C ∈ children P t b → C' ∈ children P' t' b →
      permEquivalent C C' → C = C')
    (hrun : self_orthogonal_binary_codes children n k b fuel none false p =
      .ok (ys, vs, cs)) :
    ys.Pairwise (fun M N => ¬ permEquivalent M N) ∧
    (∀ j : Int, 0 < j → b ∣ j → j ≤ n → onesRow j ∈ ys) ∧
    (∀ M ∈ ys, nrows M = 1 →
      ∃ j : Int, 0 < j ∧ b ∣ j ∧ j ≤ n ∧ M = onesRow j) := by
  have h1 : invalidB b = false := by unfold invalidB; simp [hb2]; omega
  have h2' : degenerate n k = false := by unfold degenerate; simp; omega
  refine ⟨?_, ?_, ?_⟩
  · have hnd := soc_top_yields_nodup children n k b fuel false p ys vs cs
      hb1 Hrows Hparent Hnodup h1 h2' hrun
    have hsource := soc_top_yield_source children n k b fuel false p ys vs
      cs Hrows h1 h2' hrun
    refine hnd.imp_of_mem ?_
    intro M N hM hN hne hpe
    apply hne
    rcases hsource M hM with ⟨j, hj, rfl⟩ | ⟨Q, t, hQ, hQ1⟩
    · exact (permEquivalent_onesRow j N hpe).symm
    · rcases hsource N hN with ⟨j', hj', rfl⟩ | ⟨Q', t', hQ', hQ'1⟩
      · exfalso
        have hnr := permEquivalent_nrows M (onesRow j') hpe
        rw [nrows_onesRow] at hnr
        have := Hrows Q t M hQ
        omega
      · exact Hcanon Q t Q' t' M N hQ hQ' hpe
  · intro j hj1 hj2 hj3
    obtain ⟨-, -, hfuel⟩ := soc_ok_shape hrun
    obtain ⟨f, rfl⟩ := hfuel h2'
    rw [soc_none children n k b f false p h1 h2'] at hrun
    have hj : j ∈ seedRange b n := (mem_seedRange hb1).mpr ⟨hj1, hj2, hj3⟩
    obtain ⟨ra, hra⟩ := trFlatMap_all_ok hrun j hj
    have hra2 := hra
    rw [if_pos (inTest_false_eq n k (onesRow j))] at hra2
    rw [except_map_eq_ok] at hra2
    obtain ⟨a, ha, hfa⟩ := hra2
    have hPy : onesRow j ∈ a.1 :=
      soc_frame_yields_self children n k b h1 h2' f (onesRow j)
        (inTest false n k) a ha
    have hPya : onesRow j ∈ ra.1 := by
      rw [← hfa]
      exact List.mem_filter.mpr ⟨hPy, outTest_false_eq n k (onesRow j)⟩
    exact (trFlatMap_sub hj hrun hra).1 _ hPya
  · intro M hM hM1
    have hrun0 := hrun
    obtain ⟨-, -, hfuel⟩ := soc_ok_shape hrun
    obtain ⟨f, rfl⟩ := hfuel h2'
    rw [soc_none children n k b f false p h1 h2'] at hrun
    have hMv : M ∈ vs := by
      obtain ⟨j', hj', ra, hra, hMa⟩ := trFlatMap_mem_yields hrun hM
      have hra2 := hra
      rw [if_pos (inTest_false_eq n k (onesRow j'))] at hra2
      rw [except_map_eq_ok] at hra2
      obtain ⟨a, ha, hfa⟩ := hra2
      have hMa' : M ∈ a.1 := by
        rw [← hfa] at hMa
        exact (List.mem_filter.mp hMa).1
      have hMva : M ∈ ra.2.1 := by
        rw [← hfa]
        exact soc_frame_yields_in_visits children n k b h1 h2' f (onesRow j')
          false (inTest false n k) a ha M hMa'
      exact (trFlatMap_sub hj' hrun hra).2.1 _ hMva
    obtain ⟨j, hj, heq, -⟩ := soc_one_row_visit children n k b (f + 1) false
      p ys vs cs h1 h2' Hrows hrun0 M hMv hM1
    obtain ⟨hj1, hj2, hj3⟩ := (mem_seedRange hb1).mp hj
    exact ⟨j, hj1, hj2, hj3, heq⟩

/-- Witness for the amended C2 with the empty classifier (which meets
every contract hypothesis vacuously) at `n = 2`, `k = 1`, `b = 2`: the
yield list `[[[1,1]]]` is pairwise inequivalent, contains the seed for
every positive multiple of 2 up to 2, and its only one-row member is that
seed. -/
theorem C2_amended_exactly_once_witness :
    ([onesRow 2] : List Mat).Pairwise (fun M N => ¬ permEquivalent M N) ∧
    (∀ j : Int, 0 < j → (2 : Int) ∣ j → j ≤ 2 →
      onesRow j ∈ ([onesRow 2] : List Mat)) ∧
    (∀ M ∈ ([onesRow 2] : List Mat), nrows M = 1 →
      ∃ j : Int, 0 < j ∧ (2 : Int) ∣ j ∧ j ≤ 2 ∧ M = onesRow j) :=
  C2_amended_exactly_once (fun _ _ _ => []) 2 1 2 2 (fun _ => true)
    [onesRow 2] [onesRow 2] [] (by decide) (by decide) (by decide)
    (by decide)
    (fun P t C hC => absurd hC (List.not_mem_nil C))
    (fun P t => List.nodup_nil)
    (fun P t P' t' C hC => absurd hC (List.not_mem_nil C))
    (fun P t P' t' C C' hC => absurd hC (List.not_mem_nil C))
    (by decide)
